import Mathlib

/-
  Verification of the Adaptive Cluster Expansion (ACE) core of the coniii
  repository (src/solvers.py, class ClusterExpansion) against its design
  specification.

  The embedding translates the Python source shallowly:
  * numpy 2-d arrays become lists of rows of rationals (Mat);
  * Python dicts become association lists in insertion order, so that the
    position of an entry records the time at which it was stored;
  * functions that live outside src/ (utils.convert_params,
    Solver.coocurrence_matrix, the meanFieldIsing module, SmeanField) are
    either modelled from the spec (marked in their doc comments) or threaded
    as explicit function parameters (the "oracle" of external analytic
    routines), matching the spec's view of ClusterAnalyticSolver as an
    external collaborator that is a pure function of its arguments;
  * raised exceptions become Except.error.
-/

set_option maxHeartbeats 1600000

namespace ConiiiACE

/-- Matrices are embedded as lists of rows of rationals (numpy 2-d arrays). -/
abbrev Mat := List (List ℚ)

/-- Entry access M[i][j], defaulting to 0 outside bounds (all source accesses
are in bounds; the default only totalizes the function). -/
def entry (M : Mat) (i j : ℕ) : ℚ := (M.getD i []).getD j 0

/-- Elementwise subtraction of same-shape matrices (numpy a - b). -/
def matSub (A B : Mat) : Mat := A.zipWith (fun ra rb => ra.zipWith (fun a b => a - b) rb) B

/-- Elementwise addition of same-shape matrices (numpy a + b). -/
def matAdd (A B : Mat) : Mat := A.zipWith (fun ra rb => ra.zipWith (fun a b => a + b) rb) B

/-- Elementwise negation (numpy -a). -/
def matNeg (A : Mat) : Mat := A.map (List.map (fun a => -a))

/-- np.zeros((n,m)). -/
def zerosMat (n m : ℕ) : Mat := (List.range n).map (fun _ => (List.range m).map (fun _ => (0 : ℚ)))

/-- np.diag of a square matrix: its diagonal as a vector. -/
def diagOf (M : Mat) : List ℚ := (List.range M.length).map (fun i => entry M i i)

/-- np.diag of a vector: the square matrix with the vector on the diagonal. -/
def diagMat (d : List ℚ) : Mat :=
  (List.range d.length).map (fun i => (List.range d.length).map (fun j => if i = j then d.getD i 0 else 0))

/-- Embedding of ClusterExpansion.clusterID (src/solvers.py lines 1072-1073):
the canonical identity of a cluster is tuple(np.sort(cluster)). -/
def clusterID (cluster : List ℕ) : List ℕ := List.insertionSort (fun a b => a ≤ b) cluster

/-- Python dict lookup on an association list (first matching key). -/
def lookupD {α : Type} : List (List ℕ × α) → List ℕ → Option α
  | [], _ => none
  | (k, v) :: rest, key => if k = key then some v else lookupD rest key

/-- Embedding of ClusterExpansion.subsets (src/solvers.py lines 1075-1101):
all unique subsets of the given size of a list, raising on duplicate entries.
The duplicate test len(set) != len(np.unique(set)) is rendered with dedup;
the sort flag is omitted (no caller passes it).  The recursion removes the
head element s = rest[0] and combines the subsets of the tail of the given
size with the subsets of the tail of size-1, each with s appended at the end,
exactly as the Python list operations do. -/
def subsets : List ℕ → ℤ → Except Unit (List (List ℕ))
  | s, size =>
    if s.dedup.length ≠ s.length then .error ()
    else if size = (s.length : ℤ) then .ok [s]
    else if (s.length : ℤ) < size then .ok []
    else if size ≤ 0 then .ok []
    else if size = 1 then .ok (s.map (fun x => [x]))
    else
      match s with
      | [] => .error ()
      | x :: rest =>
        match subsets rest size, subsets rest (size - 1) with
        | .ok sub1, .ok sub2 => .ok (sub1 ++ sub2.map (fun t => t ++ [x]))
        | .error e, _ => .error e
        | .ok _, .error e => .error e

/-- The pair of memo dictionaries threaded through deltaS (deltaSdict and
deltaJdict), as association lists in insertion order, plus an instrumentation
counter recording the number of invocations of the analytic solver S (the
spec's call-count instrumentation; the algorithm itself never reads it). -/
structure DState where
  dS : List (List ℕ × ℚ)
  dJ : List (List ℕ × Mat)
  sCalls : ℕ
deriving DecidableEq

/-- The size loop of deltaS (src/solvers.py line 1054): sub-clusters of sizes
len-1 down to 1, flattened in loop order (goSizes cluster k lists sizes
k, k-1, ..., 1). -/
def goSizes (cluster : List ℕ) : ℕ → Except Unit (List (List ℕ))
  | 0 => .ok []
  | k + 1 =>
    match subsets cluster ((k : ℤ) + 1), goSizes cluster k with
    | .ok subs, .ok rest => .ok (subs ++ rest)
    | .error e, _ => .error e
    | .ok _, .error e => .error e

/-- All strict sub-clusters visited by the double loop of deltaS
(src/solvers.py lines 1054-1056), in visiting order. -/
def strictSubsList (cluster : List ℕ) : Except Unit (List (List ℕ)) :=
  goSizes cluster (cluster.length - 1)

/-- The subtraction loop of deltaS (src/solvers.py lines 1053-1065): fold the
recursive call over the flattened list of strict sub-clusters, subtracting
each marginal contribution from the accumulator and threading the memo
state. -/
def goSubs (step : List ℕ → DState → Except Unit ((ℚ × Mat) × DState)) :
    List (List ℕ) → ℚ × Mat → DState → Except Unit ((ℚ × Mat) × DState)
  | [], acc, st => .ok (acc, st)
  | sub :: rest, acc, st =>
    match step sub st with
    | .error e => .error e
    | .ok (d, st') => goSubs step rest (acc.1 - d.1, matSub acc.2 d.2) st'

/-- Embedding of ClusterExpansion.deltaS (src/solvers.py lines 1011-1070),
"Algorithm 1".  The analytic routines are threaded as function parameters:
fS c is self.S(c, coocMat, deltaJdict, priorLmbda, numSamples) for the fixed
coocMat, priorLmbda and numSamples of the call tree (S raises on an empty
cluster, rendered by the emptiness test at its call site; its deltaJdict
argument is unused by S); fInd c is self.Sindependent(c, coocMat); fMF c is
SmeanField(c, coocMat, meanFieldPriorLmbda, numSamples).  Following the
source order: the reference-flag check (lines 1022-1023) precedes the memo
check (lines 1028-1031), which returns the stored pair (a KeyError on a key
present in deltaSdict but not deltaJdict is an error); otherwise the full
entropy/interaction is computed, the selected reference is subtracted (lines
1041-1051), all strict sub-clusters are subtracted (lines 1053-1065), and the
result is stored under the cluster identity before returning (lines
1067-1070).  Fuel drives the recursion; any fuel of at least the cluster
length reproduces the unbounded Python recursion. -/
def deltaSF (fS fInd fMF : List ℕ → ℚ × Mat) (indep mf : Bool) :
    ℕ → List ℕ → DState → Except Unit ((ℚ × Mat) × DState)
  | 0, _, _ => .error ()
  | fuel + 1, cluster, st =>
    if (indep && mf) || (!indep && !mf) then .error ()
    else
      match lookupD st.dS (clusterID cluster) with
      | some sv =>
        match lookupD st.dJ (clusterID cluster) with
        | some jv => .ok ((sv, jv), st)
        | none => .error ()
      | none =>
        if cluster = [] then .error ()
        else
          let full := fS cluster
          let ref := if indep then fInd cluster else fMF cluster
          let acc0 : ℚ × Mat := (full.1 - ref.1, matSub full.2 ref.2)
          match strictSubsList cluster with
          | .error e => .error e
          | .ok subs =>
            match goSubs (deltaSF fS fInd fMF indep mf fuel) subs acc0
                ⟨st.dS, st.dJ, st.sCalls + 1⟩ with
            | .error e => .error e
            | .ok (v, st2) =>
              .ok (v, ⟨st2.dS ++ [(clusterID cluster, v.1)],
                       st2.dJ ++ [(clusterID cluster, v.2)], st2.sCalls⟩)
termination_by structural fuel => fuel

/-! ### Basic facts about clusterID -/

theorem clusterID_perm (c : List ℕ) : List.Perm (clusterID c) c :=
  List.perm_insertionSort _ c

theorem clusterID_sorted (c : List ℕ) : (clusterID c).Sorted (fun a b => a ≤ b) :=
  List.sorted_insertionSort _ c

theorem clusterID_eq_of_perm {c c' : List ℕ} (h : List.Perm c c') : clusterID c = clusterID c' :=
  List.eq_of_perm_of_sorted ((clusterID_perm c).trans (h.trans (clusterID_perm c').symm))
    (clusterID_sorted c) (clusterID_sorted c')

theorem clusterID_toFinset (c : List ℕ) : (clusterID c).toFinset = c.toFinset :=
  List.toFinset_eq_of_perm _ _ (clusterID_perm c)

theorem clusterID_nodup {c : List ℕ} (h : c.Nodup) : (clusterID c).Nodup :=
  (clusterID_perm c).nodup_iff.mpr h

theorem clusterID_idem (c : List ℕ) : clusterID (clusterID c) = clusterID c :=
  clusterID_eq_of_perm (clusterID_perm c)

theorem clusterID_ne_nil {c : List ℕ} (h : c ≠ []) : clusterID c ≠ [] := by
  intro hc
  exact h (List.eq_nil_of_length_eq_zero (((clusterID_perm c).length_eq).symm.trans
    (by rw [hc]; rfl)))

/-- Canonical key of a finite index set: its increasing listing. -/
def sortKey (C : Finset ℕ) : List ℕ := C.sort (fun a b => a ≤ b)

theorem sortKey_toFinset (C : Finset ℕ) : (sortKey C).toFinset = C :=
  Finset.sort_toFinset _ C

theorem sortKey_nodup (C : Finset ℕ) : (sortKey C).Nodup :=
  Finset.sort_nodup _ C

theorem sortKey_ne_nil {C : Finset ℕ} (h : C ≠ ∅) : sortKey C ≠ [] := by
  intro hc
  apply h
  have := sortKey_toFinset C
  rw [hc] at this
  simpa using this.symm

theorem clusterID_eq_sortKey {c : List ℕ} (h : c.Nodup) :
    clusterID c = sortKey c.toFinset := by
  refine List.eq_of_perm_of_sorted ?_ (clusterID_sorted c) (Finset.sort_sorted _ _)
  refine List.perm_of_nodup_nodup_toFinset_eq (clusterID_nodup h) (sortKey_nodup _) ?_
  rw [clusterID_toFinset, sortKey_toFinset]

/-! ### The subsets enumeration: branch lemmas and the combinatorial content -/

theorem dedup_length_eq_iff {s : List ℕ} : s.dedup.length = s.length ↔ s.Nodup := by
  constructor
  · intro h
    have hsub := List.dedup_sublist s
    have heq := hsub.eq_of_length h
    rw [← heq]
    exact List.nodup_dedup s
  · intro h
    rw [List.Nodup.dedup h]

theorem subsets_not_nodup {s : List ℕ} (h : ¬ s.Nodup) (k : ℤ) :
    subsets s k = .error () := by
  have hne : s.dedup.length ≠ s.length := fun hc => h (dedup_length_eq_iff.mp hc)
  rw [subsets.eq_def]
  simp [hne]

theorem subsets_len {s : List ℕ} (hs : s.Nodup) :
    subsets s (s.length : ℤ) = .ok [s] := by
  rw [subsets.eq_def]
  simp [List.Nodup.dedup hs]

theorem subsets_gt {s : List ℕ} (hs : s.Nodup) {k : ℤ} (h : (s.length : ℤ) < k) :
    subsets s k = .ok [] := by
  have h1 : ¬ k = (s.length : ℤ) := by omega
  rw [subsets.eq_def]
  simp [List.Nodup.dedup hs, h1, h]

theorem subsets_nonpos {s : List ℕ} (hs : s.Nodup) {k : ℤ} (hk : k ≤ 0)
    (h2 : ¬(s = [] ∧ k = 0)) : subsets s k = .ok [] := by
  have hlen : ¬ k = (s.length : ℤ) := by
    intro hc
    have h0 : s.length = 0 := by omega
    exact h2 ⟨List.eq_nil_of_length_eq_zero h0, by omega⟩
  have hlt : ¬ (s.length : ℤ) < k := by omega
  rw [subsets.eq_def]
  simp [List.Nodup.dedup hs, hlen, hlt, hk]

theorem subsets_one {s : List ℕ} (hs : s.Nodup) :
    subsets s 1 = .ok (s.map (fun x => [x])) := by
  match s with
  | [] =>
    rw [subsets.eq_def]
    norm_num
  | [x] =>
    rw [subsets.eq_def]
    simp
  | x :: y :: rest =>
    have h1 : ¬ (1 : ℤ) = ((x :: y :: rest).length : ℤ) := by
      simp only [List.length_cons]
      omega
    have h2 : ¬ ((x :: y :: rest).length : ℤ) < 1 := by
      simp only [List.length_cons]
      omega
    rw [subsets.eq_def]
    simp only [List.Nodup.dedup hs, ne_eq, not_true_eq_false, if_false, List.length_cons,
      List.map_cons]
    rw [if_neg (by push_cast; omega), if_neg (by push_cast; omega), if_neg (by omega)]
    simp

theorem toFinset_map_eq {α β : Type} [DecidableEq α] [DecidableEq β] (f : α → β)
    (l : List α) : (l.map f).toFinset = l.toFinset.image f := by
  ext b
  simp

/-- Main combinatorial content of the subsets enumeration: on a
duplicate-free list and a size m with 1 ≤ m ≤ length, it returns a list of
duplicate-free sub-lists of length m whose index sets are pairwise distinct
and cover exactly the size-m subsets. -/
theorem subsets_main :
    ∀ (s : List ℕ), s.Nodup → ∀ m : ℕ, 1 ≤ m → m ≤ s.length →
    ∃ L, subsets s (m : ℤ) = .ok L ∧
      (∀ t ∈ L, t.Nodup ∧ t.length = m ∧ t.toFinset ⊆ s.toFinset) ∧
      (L.map List.toFinset).Nodup ∧
      (L.map List.toFinset).toFinset = Finset.powersetCard m s.toFinset := by
  intro s
  induction s with
  | nil =>
    intro _ m h1 h2
    simp only [List.length_nil] at h2
    omega
  | cons x rest ih =>
    intro hs m h1 h2
    have hx : x ∉ rest := (List.nodup_cons.mp hs).1
    have hrest : rest.Nodup := (List.nodup_cons.mp hs).2
    have hxF : x ∉ rest.toFinset := fun hc => hx (List.mem_toFinset.mp hc)
    have hcardF : (x :: rest).toFinset.card = (x :: rest).length :=
      List.toFinset_card_of_nodup hs
    by_cases hmlen : m = (x :: rest).length
    · -- the size equals the full length: the list itself is the only subset
      subst hmlen
      refine ⟨[x :: rest], subsets_len hs, ?_, by simp, ?_⟩
      · intro t ht
        simp only [List.mem_singleton] at ht
        subst ht
        exact ⟨hs, rfl, le_refl _⟩
      · rw [← hcardF, Finset.powersetCard_self]
        simp
    · by_cases hm1 : m = 1
      · -- size one: each element as a singleton
        subst hm1
        refine ⟨(x :: rest).map (fun a => [a]), by exact_mod_cast subsets_one hs, ?_, ?_, ?_⟩
        · intro t ht
          simp only [List.mem_map] at ht
          obtain ⟨a, ha, rfl⟩ := ht
          refine ⟨by simp, by simp, ?_⟩
          intro b hb
          simp only [List.toFinset_cons, List.toFinset_nil, insert_emptyc_eq,
            Finset.mem_singleton] at hb
          subst hb
          exact List.mem_toFinset.mpr ha
        · rw [List.map_map]
          have hmap : (List.toFinset ∘ fun a => [a]) = fun a : ℕ => ({a} : Finset ℕ) := by
            funext a
            simp
          rw [hmap]
          exact (List.Nodup.map_on (fun a _ b _ hab => Finset.singleton_injective hab) hs)
        · ext C
          constructor
          · intro hC
            rw [List.mem_toFinset] at hC
            simp only [List.map_map, List.mem_map, Function.comp_apply] at hC
            obtain ⟨a, ha, rfl⟩ := hC
            rw [Finset.mem_powersetCard]
            constructor
            · intro b hb
              have hba : b = a := by simpa using hb
              subst hba
              exact List.mem_toFinset.mpr ha
            · simp
          · intro hC
            rw [Finset.mem_powersetCard] at hC
            obtain ⟨hsub, hcard⟩ := hC
            obtain ⟨a, rfl⟩ := Finset.card_eq_one.mp hcard
            rw [List.mem_toFinset]
            simp only [List.map_map, List.mem_map, Function.comp_apply]
            refine ⟨a, ?_, by simp⟩
            exact List.mem_toFinset.mp (hsub (Finset.mem_singleton_self a))
      · -- 2 ≤ m < length: the recursive branch
        have hm2 : 2 ≤ m := by omega
        have hmr : m ≤ rest.length := by
          simp only [List.length_cons] at h2 hmlen
          omega
        have hm1r : 1 ≤ m - 1 := by omega
        have hm1rr : m - 1 ≤ rest.length := by omega
        obtain ⟨L1, e1, p1, n1, f1⟩ := ih hrest m h1 hmr
        obtain ⟨L2, e2, p2, n2, f2⟩ := ih hrest (m - 1) hm1r hm1rr
        have hcast : ((m : ℤ)) - 1 = ((m - 1 : ℕ) : ℤ) := by omega
        have hcomp : (List.toFinset ∘ fun t : List ℕ => t ++ [x]) =
            (fun C : Finset ℕ => insert x C) ∘ List.toFinset := by
          funext u
          simp only [Function.comp_apply, List.toFinset_append, List.toFinset_cons,
            List.toFinset_nil, insert_emptyc_eq]
          rw [Finset.union_comm, Finset.insert_eq]
        have memPC2 : ∀ A ∈ L2.map List.toFinset, A ⊆ rest.toFinset := by
          intro A hA
          have hA' : A ∈ (L2.map List.toFinset).toFinset := List.mem_toFinset.mpr hA
          rw [f2] at hA'
          exact (Finset.mem_powersetCard.mp hA').1
        have memPC1 : ∀ A ∈ L1.map List.toFinset, A ⊆ rest.toFinset := by
          intro A hA
          have hA' : A ∈ (L1.map List.toFinset).toFinset := List.mem_toFinset.mpr hA
          rw [f1] at hA'
          exact (Finset.mem_powersetCard.mp hA').1
        have heq : subsets (x :: rest) (m : ℤ) =
            .ok (L1 ++ L2.map (fun t => t ++ [x])) := by
          rw [subsets.eq_def]
          have g1 : ¬ ((x :: rest).dedup.length ≠ (x :: rest).length) := by
            simp [List.Nodup.dedup hs]
          have g2 : ¬ ((m : ℤ) = ((x :: rest).length : ℤ)) := by
            intro hc
            exact hmlen (by exact_mod_cast hc)
          have g3 : ¬ (((x :: rest).length : ℤ) < (m : ℤ)) := by
            simp only [List.length_cons]
            push_cast
            omega
          have g4 : ¬ ((m : ℤ) ≤ 0) := by omega
          have g5 : ¬ ((m : ℤ) = 1) := by omega
          simp only [if_neg g1, if_neg g2, if_neg g3, if_neg g4, if_neg g5, ite_not]
          rw [hcast, e1, e2]
        refine ⟨L1 ++ L2.map (fun t => t ++ [x]), heq, ?_, ?_, ?_⟩
        · -- per-element properties
          intro t ht
          rcases List.mem_append.mp ht with h | h
          · obtain ⟨ha, hb, hc⟩ := p1 t h
            refine ⟨ha, hb, hc.trans ?_⟩
            rw [List.toFinset_cons]
            exact Finset.subset_insert _ _
          · simp only [List.mem_map] at h
            obtain ⟨u, hu, rfl⟩ := h
            obtain ⟨ha, hb, hc⟩ := p2 u hu
            have hxu : x ∉ u := fun hcon => hxF (hc (List.mem_toFinset.mpr hcon))
            refine ⟨?_, ?_, ?_⟩
            · rw [List.nodup_append]
              refine ⟨ha, by simp, ?_⟩
              intro b hbu hbx
              have hbeq : b = x := by simpa using hbx
              subst hbeq
              exact hxu hbu
            · have hlen : (u ++ [x]).length = u.length + 1 := by simp
              omega
            · rw [List.toFinset_append]
              refine Finset.union_subset ?_ ?_
              · rw [List.toFinset_cons]
                exact hc.trans (Finset.subset_insert _ _)
              · intro b hb
                have hbeq : b = x := by simpa using hb
                subst hbeq
                rw [List.toFinset_cons]
                exact Finset.mem_insert_self _ _
        · -- pairwise distinct index sets
          rw [List.map_append, List.map_map, hcomp, ← List.map_map, List.nodup_append]
          refine ⟨n1, ?_, ?_⟩
          · refine List.Nodup.map_on ?_ n2
            intro A hA B hB hAB
            have hxA : x ∉ A := fun hc => hxF (memPC2 A hA hc)
            have hxB : x ∉ B := fun hc => hxF (memPC2 B hB hc)
            calc A = (insert x A).erase x := (Finset.erase_insert hxA).symm
              _ = (insert x B).erase x := by rw [hAB]
              _ = B := Finset.erase_insert hxB
          · -- the two halves are disjoint: the first avoids x, the second contains it
            intro A hA1 hA2
            simp only [List.mem_map] at hA2
            obtain ⟨B, _, rfl⟩ := hA2
            exact hxF (memPC1 _ hA1 (Finset.mem_insert_self x B))
        · -- coverage of all size-m subsets
          rw [List.map_append, List.map_map, hcomp, ← List.map_map, List.toFinset_append, f1,
            toFinset_map_eq (fun C : Finset ℕ => insert x C) (L2.map List.toFinset), f2]
          have hsucc := Finset.powersetCard_succ_insert hxF (m - 1)
          have hms : (m - 1).succ = m := by omega
          rw [hms] at hsucc
          rw [List.toFinset_cons, hsucc]

theorem subsets_card {s : List ℕ} {m : ℕ} {L : List (List ℕ)} (hs : s.Nodup)
    (_hok : subsets s (m : ℤ) = .ok L)
    (hnd : (L.map List.toFinset).Nodup)
    (hcov : (L.map List.toFinset).toFinset = Finset.powersetCard m s.toFinset) :
    L.length = Nat.choose s.length m := by
  have h1 : L.length = (L.map List.toFinset).length := by simp
  have h2 : (L.map List.toFinset).length = (L.map List.toFinset).toFinset.card :=
    (List.toFinset_card_of_nodup hnd).symm
  rw [h1, h2, hcov, Finset.card_powersetCard, List.toFinset_card_of_nodup hs]

/-- The strict non-empty subsets of a finite index set. -/
def strictNF (A : Finset ℕ) : Finset (Finset ℕ) := (A.powerset.erase A).erase ∅

theorem mem_strictNF {A C : Finset ℕ} :
    C ∈ strictNF A ↔ C ⊆ A ∧ C ≠ ∅ ∧ C ≠ A := by
  simp only [strictNF, Finset.mem_erase, Finset.mem_powerset]
  tauto

theorem card_lt_of_mem_strictNF {A C : Finset ℕ} (h : C ∈ strictNF A) :
    C.card < A.card := by
  obtain ⟨hsub, _, hne⟩ := mem_strictNF.mp h
  exact Finset.card_lt_card (HasSubset.Subset.ssubset_of_ne hsub hne)

theorem goSizes_spec {cluster : List ℕ} (hnd : cluster.Nodup) :
    ∀ k, k ≤ cluster.length →
    ∃ SL, goSizes cluster k = .ok SL ∧
      (∀ t ∈ SL, t.Nodup ∧ t ≠ [] ∧ t.length ≤ k ∧ t.toFinset ⊆ cluster.toFinset) ∧
      (SL.map List.toFinset).Nodup ∧
      (SL.map List.toFinset).toFinset =
        cluster.toFinset.powerset.filter (fun C => C ≠ ∅ ∧ C.card ≤ k) := by
  intro k
  induction k with
  | zero =>
    intro _
    refine ⟨[], rfl, by simp, by simp, ?_⟩
    ext C
    simp only [List.map_nil, List.toFinset_nil, Finset.not_mem_empty, false_iff,
      Finset.mem_filter, Finset.mem_powerset, not_and, and_imp]
    intro _ hne hcard
    exact hne (Finset.card_eq_zero.mp (Nat.le_zero.mp hcard))
  | succ k ih =>
    intro hk
    obtain ⟨SL, eSL, pSL, nSL, fSL⟩ := ih (by omega)
    obtain ⟨L, eL, pL, nL, fL⟩ := subsets_main cluster hnd (k + 1) (by omega) hk
    have ecast : ((k : ℤ)) + 1 = ((k + 1 : ℕ) : ℤ) := by push_cast; omega
    have heq : goSizes cluster (k + 1) = .ok (L ++ SL) := by
      rw [goSizes, ecast, eL, eSL]
    have cardL : ∀ A ∈ L.map List.toFinset, A.card = k + 1 := by
      intro A hA
      simp only [List.mem_map] at hA
      obtain ⟨t, ht, rfl⟩ := hA
      obtain ⟨htn, htl, _⟩ := pL t ht
      rw [List.toFinset_card_of_nodup htn, htl]
    have cardSL : ∀ A ∈ SL.map List.toFinset, A.card ≤ k := by
      intro A hA
      have hA' : A ∈ (SL.map List.toFinset).toFinset := List.mem_toFinset.mpr hA
      rw [fSL] at hA'
      exact (Finset.mem_filter.mp hA').2.2
    refine ⟨L ++ SL, heq, ?_, ?_, ?_⟩
    · intro t ht
      rcases List.mem_append.mp ht with h | h
      · obtain ⟨ha, hb, hc⟩ := pL t h
        refine ⟨ha, ?_, by omega, hc⟩
        intro hnil
        rw [hnil] at hb
        simp at hb
      · obtain ⟨ha, hb, hc, hd⟩ := pSL t h
        exact ⟨ha, hb, by omega, hd⟩
    · rw [List.map_append, List.nodup_append]
      refine ⟨nL, nSL, ?_⟩
      intro A hA1 hA2
      have h1 := cardL A hA1
      have h2 := cardSL A hA2
      omega
    · rw [List.map_append, List.toFinset_append, fL, fSL]
      ext C
      simp only [Finset.mem_union, Finset.mem_powersetCard, Finset.mem_filter,
        Finset.mem_powerset]
      constructor
      · rintro (⟨hsub, hcard⟩ | ⟨hsub, hne, hcard⟩)
        · refine ⟨hsub, ?_, by omega⟩
          intro hc
          rw [hc] at hcard
          simp at hcard
        · exact ⟨hsub, hne, by omega⟩
      · rintro ⟨hsub, hne, hcard⟩
        by_cases hc : C.card = k + 1
        · exact Or.inl ⟨hsub, hc⟩
        · refine Or.inr ⟨hsub, hne, by omega⟩

theorem strictSubsList_spec {cluster : List ℕ} (hnd : cluster.Nodup)
    (hne : cluster ≠ []) :
    ∃ SL, strictSubsList cluster = .ok SL ∧
      (∀ t ∈ SL, t.Nodup ∧ t ≠ [] ∧ t.length + 1 ≤ cluster.length ∧
        t.toFinset ⊆ cluster.toFinset) ∧
      (SL.map List.toFinset).Nodup ∧
      (SL.map List.toFinset).toFinset = strictNF cluster.toFinset := by
  have hlen : 1 ≤ cluster.length := by
    cases cluster with
    | nil => exact absurd rfl hne
    | cons a l => simp
  have hcard : cluster.toFinset.card = cluster.length := List.toFinset_card_of_nodup hnd
  obtain ⟨SL, eSL, pSL, nSL, fSL⟩ := goSizes_spec hnd (cluster.length - 1) (by omega)
  refine ⟨SL, eSL, ?_, nSL, ?_⟩
  · intro t ht
    obtain ⟨ha, hb, hc, hd⟩ := pSL t ht
    exact ⟨ha, hb, by omega, hd⟩
  · rw [fSL]
    ext C
    rw [mem_strictNF]
    simp only [Finset.mem_filter, Finset.mem_powerset]
    constructor
    · rintro ⟨hsub, hne', hcd⟩
      refine ⟨hsub, hne', ?_⟩
      intro hc
      rw [hc, hcard] at hcd
      omega
    · rintro ⟨hsub, hne', hnea⟩
      refine ⟨hsub, hne', ?_⟩
      have hlt : C.card < cluster.toFinset.card :=
        Finset.card_lt_card (HasSubset.Subset.ssubset_of_ne hsub hnea)
      omega

/-! ### The pure inclusion-exclusion specification dPure -/

/-- Fuel-indexed form of the canonical marginal contribution determined by
the inclusion-exclusion recurrence. -/
def dPureAux (F R : Finset ℕ → ℚ) : ℕ → Finset ℕ → ℚ
  | 0, A => F A - R A
  | n + 1, A => F A - R A - ∑ C ∈ strictNF A, dPureAux F R n C

/-- The canonical marginal entropy contribution of a cluster, relative to a
full-entropy function F and a reference-entropy function R on index sets:
its full entropy minus the reference minus the contributions of all strict
non-empty sub-clusters.  This is the mathematical specification that the
memoized recursion of deltaS is proved to implement. -/
def dPure (F R : Finset ℕ → ℚ) (A : Finset ℕ) : ℚ := dPureAux F R A.card A

theorem strictNF_empty : strictNF (∅ : Finset ℕ) = ∅ := by
  ext C
  rw [mem_strictNF]
  simp only [Finset.not_mem_empty, iff_false, not_and]
  intro hsub hne
  exact absurd (Finset.subset_empty.mp hsub) hne

theorem dPureAux_indep {F R : Finset ℕ → ℚ} :
    ∀ n, ∀ m, ∀ A : Finset ℕ, A.card ≤ n → A.card ≤ m →
      dPureAux F R n A = dPureAux F R m A := by
  intro n
  induction n with
  | zero =>
    intro m A hn _
    have hA : A = ∅ := Finset.card_eq_zero.mp (Nat.le_zero.mp hn)
    subst hA
    cases m with
    | zero => rfl
    | succ m' =>
      rw [dPureAux, dPureAux, strictNF_empty]
      simp
  | succ n' ih =>
    intro m A hn hm
    cases m with
    | zero =>
      have hA : A = ∅ := Finset.card_eq_zero.mp (Nat.le_zero.mp hm)
      subst hA
      rw [dPureAux, dPureAux, strictNF_empty]
      simp
    | succ m' =>
      rw [dPureAux, dPureAux]
      congr 1
      refine Finset.sum_congr rfl ?_
      intro C hC
      have hlt := card_lt_of_mem_strictNF hC
      exact ih m' C (by omega) (by omega)

/-- The defining equation of dPure. -/
theorem dPure_eq (F R : Finset ℕ → ℚ) (A : Finset ℕ) :
    dPure F R A = F A - R A - ∑ C ∈ strictNF A, dPure F R C := by
  unfold dPure
  cases hA : A.card with
  | zero =>
    have hAe : A = ∅ := Finset.card_eq_zero.mp hA
    subst hAe
    rw [dPureAux, strictNF_empty]
    simp
  | succ c =>
    rw [dPureAux]
    congr 1
    refine Finset.sum_congr rfl ?_
    intro C hC
    have hlt := card_lt_of_mem_strictNF hC
    rw [hA] at hlt
    exact dPureAux_indep c C.card C (by omega) (le_refl _)

/-- Inclusion-exclusion round-trip at the level of the specification: the
full entropy of a non-empty index set is the reference entropy plus the sum
of the canonical marginal contributions over all its non-empty subsets. -/
theorem dPure_roundtrip (F R : Finset ℕ → ℚ) (A : Finset ℕ) (hA : A ≠ ∅) :
    F A = R A + ∑ C ∈ A.powerset.erase ∅, dPure F R C := by
  have hsplit : A.powerset.erase ∅ = insert A (strictNF A) := by
    ext C
    rw [Finset.mem_insert, mem_strictNF]
    simp only [Finset.mem_erase, Finset.mem_powerset]
    constructor
    · rintro ⟨hne, hsub⟩
      by_cases hc : C = A
      · exact Or.inl hc
      · exact Or.inr ⟨hsub, hne, hc⟩
    · rintro (rfl | ⟨hsub, hne, _⟩)
      · exact ⟨hA, le_refl _⟩
      · exact ⟨hne, hsub⟩
  have hnotmem : A ∉ strictNF A := by
    intro hc
    exact (mem_strictNF.mp hc).2.2 rfl
  rw [hsplit, Finset.sum_insert hnotmem, dPure_eq]
  ring

/-! ### Association-list dictionaries: lookup, keys and positions -/

/-- The keys of a dictionary, in insertion order. -/
def keyList {α : Type} (d : List (List ℕ × α)) : List (List ℕ) := d.map Prod.fst

theorem keyList_append {α : Type} (d1 d2 : List (List ℕ × α)) :
    keyList (d1 ++ d2) = keyList d1 ++ keyList d2 := List.map_append _ _ _

theorem lookupD_eq_none {α : Type} {d : List (List ℕ × α)} {key : List ℕ} :
    lookupD d key = none ↔ key ∉ keyList d := by
  induction d with
  | nil => simp [lookupD, keyList]
  | cons p rest ih =>
    obtain ⟨k, v⟩ := p
    by_cases h : k = key
    · subst h
      simp [lookupD, keyList]
    · rw [keyList, List.map_cons]
      rw [lookupD, if_neg h]
      simp only [List.mem_cons, not_or]
      constructor
      · intro hnone
        exact ⟨fun hc => h hc.symm, (ih.mp (by exact hnone))⟩
      · rintro ⟨_, hmem⟩
        exact ih.mpr hmem

theorem lookupD_isSome_of_mem {α : Type} {d : List (List ℕ × α)} {key : List ℕ}
    (h : key ∈ keyList d) : ∃ v, lookupD d key = some v := by
  cases hl : lookupD d key with
  | none => exact absurd (lookupD_eq_none.mp hl) (by simp [h])
  | some v => exact ⟨v, rfl⟩

theorem lookupD_mem {α : Type} {d : List (List ℕ × α)} {key : List ℕ} {v : α}
    (h : lookupD d key = some v) : (key, v) ∈ d ∧ key ∈ keyList d := by
  induction d with
  | nil => simp [lookupD] at h
  | cons p rest ih =>
    obtain ⟨k, w⟩ := p
    by_cases hk : k = key
    · subst hk
      rw [lookupD, if_pos rfl] at h
      obtain rfl : w = v := by injection h
      exact ⟨List.mem_cons_self _ _, List.mem_cons_self _ _⟩
    · rw [lookupD, if_neg hk] at h
      obtain ⟨h1, h2⟩ := ih h
      exact ⟨List.mem_cons_of_mem _ h1, List.mem_cons_of_mem _ h2⟩

theorem lookupD_append_left {α : Type} {d1 : List (List ℕ × α)} {key : List ℕ} {v : α}
    (d2 : List (List ℕ × α)) (h : lookupD d1 key = some v) :
    lookupD (d1 ++ d2) key = some v := by
  induction d1 with
  | nil => simp [lookupD] at h
  | cons p rest ih =>
    obtain ⟨k, w⟩ := p
    by_cases hk : k = key
    · subst hk
      rw [lookupD, if_pos rfl] at h
      rw [List.cons_append, lookupD, if_pos rfl]
      exact h
    · rw [lookupD, if_neg hk] at h
      rw [List.cons_append, lookupD, if_neg hk]
      exact ih h

theorem lookupD_append_right {α : Type} {d1 : List (List ℕ × α)} {key : List ℕ}
    (d2 : List (List ℕ × α)) (h : lookupD d1 key = none) :
    lookupD (d1 ++ d2) key = lookupD d2 key := by
  induction d1 with
  | nil => simp
  | cons p rest ih =>
    obtain ⟨k, w⟩ := p
    by_cases hk : k = key
    · subst hk
      rw [lookupD, if_pos rfl] at h
      exact absurd h (by simp)
    · rw [lookupD, if_neg hk] at h
      rw [List.cons_append, lookupD, if_neg hk]
      exact ih h

theorem lookupD_single {α : Type} (key : List ℕ) (v : α) :
    lookupD [(key, v)] key = some v := by
  rw [lookupD, if_pos rfl]

/-- Position of a key in a key list: the index at which it was inserted. -/
def posOf : List (List ℕ) → List ℕ → ℕ
  | [], _ => 0
  | k :: rest, key => if k = key then 0 else posOf rest key + 1

theorem posOf_append_left {l1 : List (List ℕ)} {key : List ℕ} (l2 : List (List ℕ))
    (h : key ∈ l1) : posOf (l1 ++ l2) key = posOf l1 key := by
  induction l1 with
  | nil => simp at h
  | cons k rest ih =>
    by_cases hk : k = key
    · subst hk
      rw [List.cons_append, posOf, if_pos rfl, posOf, if_pos rfl]
    · rw [List.cons_append, posOf, if_neg hk, posOf, if_neg hk]
      have hmem : key ∈ rest := by
        rcases List.mem_cons.mp h with hc | hc
        · exact absurd hc.symm hk
        · exact hc
      rw [ih hmem]

theorem posOf_lt_length {l : List (List ℕ)} {key : List ℕ} (h : key ∈ l) :
    posOf l key < l.length := by
  induction l with
  | nil => simp at h
  | cons k rest ih =>
    by_cases hk : k = key
    · subst hk
      rw [posOf, if_pos rfl]
      simp
    · rw [posOf, if_neg hk]
      have hmem : key ∈ rest := by
        rcases List.mem_cons.mp h with hc | hc
        · exact absurd hc.symm hk
        · exact hc
      have := ih hmem
      simp only [List.length_cons]
      omega

theorem posOf_append_self {l : List (List ℕ)} {key : List ℕ} (h : key ∉ l) :
    posOf (l ++ [key]) key = l.length := by
  induction l with
  | nil => simp [posOf]
  | cons k rest ih =>
    have hk : ¬ k = key := fun hc => h (by rw [hc]; exact List.mem_cons_self _ _)
    rw [List.cons_append, posOf, if_neg hk, ih (fun hc => h (List.mem_cons_of_mem _ hc))]
    simp

/-! ### The soundness invariant of the memo dictionaries -/

/-- Invariant of the pair of memo dictionaries relative to the full-entropy
function F and the reference-entropy function R: both dictionaries hold the
same keys in the same insertion order; keys are canonical non-empty
duplicate-free sorted identities; every entropy entry equals the canonical
marginal contribution of its index set; and the registry is subset-closed in
storage order: every strict non-empty subset of a stored cluster is itself
stored, at an earlier position. -/
structure Sound (F R : Finset ℕ → ℚ) (st : DState) : Prop where
  keysJ : keyList st.dJ = keyList st.dS
  nodupKeys : (keyList st.dS).Nodup
  canonKeys : ∀ k ∈ keyList st.dS, k ≠ [] ∧ k.Nodup ∧ clusterID k = k
  valsS : ∀ p ∈ st.dS, p.2 = dPure F R p.1.toFinset
  closedKeys : ∀ k ∈ keyList st.dS, ∀ C : Finset ℕ,
      C ⊆ k.toFinset → C ≠ ∅ → C ≠ k.toFinset →
      sortKey C ∈ keyList st.dS ∧
        posOf (keyList st.dS) (sortKey C) < posOf (keyList st.dS) k

theorem sound_empty (F R : Finset ℕ → ℚ) : Sound F R ⟨[], [], 0⟩ := by
  refine ⟨rfl, List.nodup_nil, ?_, ?_, ?_⟩ <;> simp [keyList]

/-- Postcondition of one deltaS call computing cluster from state st to state
st' with entropy result v. -/
structure DPost (F R : Finset ℕ → ℚ) (cluster : List ℕ) (st st' : DState)
    (v : ℚ) : Prop where
  extS : ∃ t, st'.dS = st.dS ++ t
  extJ : ∃ t, st'.dJ = st.dJ ++ t
  soundOut : Sound F R st'
  val : v = dPure F R cluster.toFinset
  lookS : lookupD st'.dS (clusterID cluster) = some v
  subsPresent : ∀ C : Finset ℕ, C ⊆ cluster.toFinset → C ≠ ∅ →
      sortKey C ∈ keyList st'.dS
  newKeys : ∀ k ∈ keyList st'.dS, k ∈ keyList st.dS ∨
      (k ≠ [] ∧ k.toFinset ⊆ cluster.toFinset)

/-- Specification of the subtraction loop over a list of sub-clusters, given
a specification of the single recursive step. -/
theorem goSubs_spec (F R : Finset ℕ → ℚ)
    (step : List ℕ → DState → Except Unit ((ℚ × Mat) × DState))
    (P : List ℕ → Prop)
    (hstep : ∀ c st, P c → c.Nodup → c ≠ [] → Sound F R st →
      ∃ v j st', step c st = .ok ((v, j), st') ∧
        lookupD st'.dJ (clusterID c) = some j ∧ DPost F R c st st' v) :
    ∀ subs (acc : ℚ × Mat) st, (∀ t ∈ subs, P t ∧ t.Nodup ∧ t ≠ []) → Sound F R st →
    ∃ acc2 st2, goSubs step subs acc st = .ok (acc2, st2) ∧
      acc2.1 = acc.1 - (subs.map (fun t => dPure F R t.toFinset)).sum ∧
      (∃ t, st2.dS = st.dS ++ t) ∧ (∃ t, st2.dJ = st.dJ ++ t) ∧
      Sound F R st2 ∧
      (∀ t ∈ subs, ∀ C : Finset ℕ, C ⊆ t.toFinset → C ≠ ∅ →
        sortKey C ∈ keyList st2.dS) ∧
      (∀ k ∈ keyList st2.dS, k ∈ keyList st.dS ∨
        (k ≠ [] ∧ ∃ t ∈ subs, k.toFinset ⊆ t.toFinset)) := by
  intro subs
  induction subs with
  | nil =>
    intro acc st _ hsound
    exact ⟨acc, st, rfl, by simp, ⟨[], by simp⟩, ⟨[], by simp⟩, hsound, by simp,
      fun k hk => Or.inl hk⟩
  | cons sub rest ih =>
    intro acc st hprops hsound
    obtain ⟨hP, hnd, hne⟩ := hprops sub (List.mem_cons_self _ _)
    obtain ⟨v, j, st1, hstepEq, hlookJ, post⟩ := hstep sub st hP hnd hne hsound
    obtain ⟨acc2, st2, heq2, hacc, hextS, hextJ, hsound2, hpres2, hnew2⟩ :=
      ih (acc.1 - v, matSub acc.2 j) st1
        (fun t ht => hprops t (List.mem_cons_of_mem _ ht)) post.soundOut
    refine ⟨acc2, st2, ?_, ?_, ?_, ?_, hsound2, ?_, ?_⟩
    · rw [goSubs, hstepEq]
      exact heq2
    · rw [hacc, post.val]
      simp only [List.map_cons, List.sum_cons]
      ring
    · obtain ⟨t1, h1⟩ := post.extS
      obtain ⟨t2, h2⟩ := hextS
      exact ⟨t1 ++ t2, by rw [h2, h1, List.append_assoc]⟩
    · obtain ⟨t1, h1⟩ := post.extJ
      obtain ⟨t2, h2⟩ := hextJ
      exact ⟨t1 ++ t2, by rw [h2, h1, List.append_assoc]⟩
    · intro t ht C hsubC hCne
      rcases List.mem_cons.mp ht with rfl | ht'
      · have h1 := post.subsPresent C hsubC hCne
        obtain ⟨t2, h2⟩ := hextS
        rw [h2, keyList_append]
        exact List.mem_append_left _ h1
      · exact hpres2 t ht' C hsubC hCne
    · intro k hk
      rcases hnew2 k hk with hk1 | ⟨hkne, t, ht, hsubk⟩
      · rcases post.newKeys k hk1 with h | ⟨hne', hsub'⟩
        · exact Or.inl h
        · exact Or.inr ⟨hne', sub, List.mem_cons_self _ _, hsub'⟩
      · exact Or.inr ⟨hkne, t, List.mem_cons_of_mem _ ht, hsubk⟩

/-- Main refinement theorem for deltaS: on a duplicate-free non-empty
cluster, with exactly one reference mode active, from any sound memo state
and sufficient fuel, deltaS succeeds, returns the canonical marginal
contribution dPure of the cluster's index set, and leaves a sound,
append-only extended memo state containing the identity of the cluster and
of every non-empty subset.  The hypotheses hF and hR state that the external
analytic entropies are functions of the cluster's index set alone, which is
the spec's determinism assumption on ClusterAnalyticSolver. -/
theorem deltaSF_spec (fS fInd fMF : List ℕ → ℚ × Mat) (F R : Finset ℕ → ℚ)
    (indep mf : Bool) (hflag : ((indep && mf) || (!indep && !mf)) = false)
    (hF : ∀ l, (fS l).1 = F l.toFinset)
    (hR : ∀ l, (if indep then fInd l else fMF l).1 = R l.toFinset) :
    ∀ fuel cluster st, cluster.Nodup → cluster ≠ [] → cluster.length ≤ fuel →
      Sound F R st →
      ∃ v j st', deltaSF fS fInd fMF indep mf fuel cluster st = .ok ((v, j), st') ∧
        lookupD st'.dJ (clusterID cluster) = some j ∧
        DPost F R cluster st st' v := by
  intro fuel
  induction fuel with
  | zero =>
    intro cluster st hnd hne hlen _
    have h0 : cluster.length = 0 := by omega
    exact absurd (List.eq_nil_of_length_eq_zero h0) hne
  | succ fuel ih =>
    intro cluster st hnd hne hlen hsound
    cases hlook : lookupD st.dS (clusterID cluster) with
    | some sv =>
      -- memo hit: return the stored pair, state unchanged
      have hmempair := lookupD_mem hlook
      have hmem : clusterID cluster ∈ keyList st.dS := hmempair.2
      have hmemJ : clusterID cluster ∈ keyList st.dJ := by
        rw [hsound.keysJ]
        exact hmem
      obtain ⟨jv, hjv⟩ := lookupD_isSome_of_mem hmemJ
      refine ⟨sv, jv, st, ?_, hjv, ?_⟩
      · rw [deltaSF, hflag]
        simp only [Bool.false_eq_true, if_false]
        rw [hlook, hjv]
      · refine ⟨⟨[], by simp⟩, ⟨[], by simp⟩, hsound, ?_, hlook, ?_, fun k hk => Or.inl hk⟩
        · have hv := hsound.valsS _ hmempair.1
          simpa [clusterID_toFinset] using hv
        · intro C hsubC hCne
          by_cases hCeq : C = cluster.toFinset
          · subst hCeq
            rw [← clusterID_eq_sortKey hnd]
            exact hmem
          · exact (hsound.closedKeys _ hmem C
              (by rw [clusterID_toFinset]; exact hsubC) hCne
              (by rw [clusterID_toFinset]; exact hCeq)).1
    | none =>
      -- memo miss: compute, subtract reference and all strict sub-clusters
      obtain ⟨SL, eSL, pSL, nSL, fSL⟩ := strictSubsList_spec hnd hne
      have hsound1 : Sound F R ⟨st.dS, st.dJ, st.sCalls + 1⟩ :=
        ⟨hsound.keysJ, hsound.nodupKeys, hsound.canonKeys, hsound.valsS,
         hsound.closedKeys⟩
      obtain ⟨acc2, st2, heq2, hacc, hextS, hextJ, hsound2, hpres2, hnew2⟩ :=
        goSubs_spec F R (deltaSF fS fInd fMF indep mf fuel) (fun c => c.length ≤ fuel)
          (fun c st0 hPc hndc hnec hsc => ih c st0 hndc hnec hPc hsc)
          SL
          ((fS cluster).1 - (if indep then fInd cluster else fMF cluster).1,
            matSub (fS cluster).2 (if indep then fInd cluster else fMF cluster).2)
          ⟨st.dS, st.dJ, st.sCalls + 1⟩
          (fun t ht => by
            obtain ⟨ha, hb, hc, _⟩ := pSL t ht
            exact ⟨by omega, ha, hb⟩)
          hsound1
      have hsum : (SL.map (fun t => dPure F R t.toFinset)).sum
          = (strictNF cluster.toFinset).sum (dPure F R) := by
        have h1 : SL.map (fun t => dPure F R t.toFinset)
            = (SL.map List.toFinset).map (dPure F R) := by
          rw [List.map_map]
          rfl
        rw [h1, ← List.sum_toFinset (dPure F R) nSL, fSL]
      have hval : acc2.1 = dPure F R cluster.toFinset := by
        rw [hacc, hsum, dPure_eq, hF cluster, hR cluster]
      have hnotin2 : clusterID cluster ∉ keyList st2.dS := by
        intro hc
        rcases hnew2 _ hc with h | ⟨_, t, ht, hsubk⟩
        · exact (lookupD_eq_none.mp hlook) h
        · have h1 : t.toFinset ∈ (SL.map List.toFinset).toFinset :=
            List.mem_toFinset.mpr (List.mem_map_of_mem List.toFinset ht)
          rw [fSL] at h1
          have h2 := card_lt_of_mem_strictNF h1
          have h3 : cluster.toFinset.card ≤ t.toFinset.card := by
            refine Finset.card_le_card ?_
            rw [← clusterID_toFinset cluster]
            exact hsubk
          omega
      have hnotin2J : clusterID cluster ∉ keyList st2.dJ := by
        rw [hsound2.keysJ]
        exact hnotin2
      -- the stored final state
      refine ⟨acc2.1, acc2.2,
        ⟨st2.dS ++ [(clusterID cluster, acc2.1)],
         st2.dJ ++ [(clusterID cluster, acc2.2)], st2.sCalls⟩, ?_, ?_, ?_⟩
      · -- the evaluation equation
        rw [deltaSF, hflag]
        simp only [Bool.false_eq_true, if_false]
        rw [hlook, if_neg hne, eSL]
        simp only []
        rw [heq2]
      · -- the J lookup finds the freshly stored matrix
        rw [lookupD_append_right _ (lookupD_eq_none.mpr hnotin2J), lookupD_single]
      · -- the postcondition
        have hkeysNew : keyList (st2.dS ++ [(clusterID cluster, acc2.1)])
            = keyList st2.dS ++ [clusterID cluster] := by
          rw [keyList_append]
          rfl
        have hkeysNewJ : keyList (st2.dJ ++ [(clusterID cluster, acc2.2)])
            = keyList st2.dJ ++ [clusterID cluster] := by
          rw [keyList_append]
          rfl
        have hmemOfStrict : ∀ C : Finset ℕ, C ⊆ cluster.toFinset → C ≠ ∅ →
            C ≠ cluster.toFinset → sortKey C ∈ keyList st2.dS := by
          intro C hsubC hCne hCneq
          have hCin : C ∈ (SL.map List.toFinset).toFinset := by
            rw [fSL, mem_strictNF]
            exact ⟨hsubC, hCne, hCneq⟩
          rw [List.mem_toFinset] at hCin
          simp only [List.mem_map] at hCin
          obtain ⟨t, ht, rfl⟩ := hCin
          exact hpres2 t ht _ (le_refl _) hCne
        refine ⟨?_, ?_, ?_, hval, ?_, ?_, ?_⟩
        · obtain ⟨t2, h2⟩ := hextS
          exact ⟨t2 ++ [(clusterID cluster, acc2.1)], by
            show st2.dS ++ _ = st.dS ++ _
            rw [h2, List.append_assoc]⟩
        · obtain ⟨t2, h2⟩ := hextJ
          exact ⟨t2 ++ [(clusterID cluster, acc2.2)], by
            show st2.dJ ++ _ = st.dJ ++ _
            rw [h2, List.append_assoc]⟩
        · -- soundness of the extended state
          refine ⟨?_, ?_, ?_, ?_, ?_⟩
          · show keyList (st2.dJ ++ _) = keyList (st2.dS ++ _)
            rw [hkeysNew, hkeysNewJ, hsound2.keysJ]
          · show (keyList (st2.dS ++ _)).Nodup
            rw [hkeysNew, List.nodup_append]
            refine ⟨hsound2.nodupKeys, by simp, ?_⟩
            intro a ha ha2
            rw [List.mem_singleton] at ha2
            subst ha2
            exact hnotin2 ha
          · show ∀ k ∈ keyList (st2.dS ++ _), _
            rw [hkeysNew]
            intro k hk
            rcases List.mem_append.mp hk with hk1 | hk2
            · exact hsound2.canonKeys k hk1
            · rw [List.mem_singleton] at hk2
              subst hk2
              exact ⟨clusterID_ne_nil hne, clusterID_nodup hnd, clusterID_idem _⟩
          · intro p hp
            rcases List.mem_append.mp hp with hp1 | hp2
            · exact hsound2.valsS p hp1
            · rw [List.mem_singleton] at hp2
              subst hp2
              rw [hval]
              show dPure F R cluster.toFinset = dPure F R (clusterID cluster).toFinset
              rw [clusterID_toFinset]
          · show ∀ k ∈ keyList (st2.dS ++ _), _
            rw [hkeysNew]
            intro k hk C hsubC hCne hCneq
            rcases List.mem_append.mp hk with hk1 | hk2
            · obtain ⟨hm, hpos⟩ := hsound2.closedKeys k hk1 C hsubC hCne hCneq
              refine ⟨List.mem_append_left _ hm, ?_⟩
              rw [posOf_append_left _ hm, posOf_append_left _ hk1]
              exact hpos
            · rw [List.mem_singleton] at hk2
              subst hk2
              rw [clusterID_toFinset] at hsubC hCneq
              have hm := hmemOfStrict C hsubC hCne hCneq
              refine ⟨List.mem_append_left _ hm, ?_⟩
              rw [posOf_append_left _ hm, posOf_append_self hnotin2]
              exact posOf_lt_length hm
        · -- the freshly stored entropy is found under the cluster identity
          rw [lookupD_append_right _ (lookupD_eq_none.mpr hnotin2), lookupD_single]
        · -- every non-empty subset identity is present
          intro C hsubC hCne
          show sortKey C ∈ keyList (st2.dS ++ _)
          rw [hkeysNew]
          by_cases hCeq : C = cluster.toFinset
          · subst hCeq
            rw [← clusterID_eq_sortKey hnd]
            exact List.mem_append_right _ (List.mem_singleton_self _)
          · exact List.mem_append_left _ (hmemOfStrict C hsubC hCne hCeq)
        · -- provenance of all keys of the final state
          intro k hk
          rw [hkeysNew] at hk
          rcases List.mem_append.mp hk with hk1 | hk2
          · rcases hnew2 k hk1 with h | ⟨hkne, t, ht, hsubk⟩
            · exact Or.inl h
            · obtain ⟨_, _, _, hsub⟩ := pSL t ht
              exact Or.inr ⟨hkne, hsubk.trans hsub⟩
          · rw [List.mem_singleton] at hk2
            subst hk2
            refine Or.inr ⟨clusterID_ne_nil hne, ?_⟩
            rw [clusterID_toFinset]

/-- deltaS at its canonical fuel (one more than the cluster length, which the
fuel lemmas show is enough to reproduce the unbounded Python recursion). -/
def deltaS (fS fInd fMF : List ℕ → ℚ × Mat) (indep mf : Bool)
    (cluster : List ℕ) (st : DState) : Except Unit ((ℚ × Mat) × DState) :=
  deltaSF fS fInd fMF indep mf (cluster.length + 1) cluster st

theorem sound_lookup_eq {F R : Finset ℕ → ℚ} {st : DState} (hs : Sound F R st)
    {C : Finset ℕ} (hmem : sortKey C ∈ keyList st.dS) :
    lookupD st.dS (sortKey C) = some (dPure F R C) := by
  obtain ⟨w, hw⟩ := lookupD_isSome_of_mem hmem
  have hval := hs.valsS _ (lookupD_mem hw).1
  rw [sortKey_toFinset] at hval
  rw [hw]
  exact congrArg some hval

/-- Packaged form of the refinement theorem at the canonical fuel. -/
theorem deltaS_spec (fS fInd fMF : List ℕ → ℚ × Mat) (F R : Finset ℕ → ℚ)
    (indep mf : Bool) (hflag : ((indep && mf) || (!indep && !mf)) = false)
    (hF : ∀ l, (fS l).1 = F l.toFinset)
    (hR : ∀ l, (if indep then fInd l else fMF l).1 = R l.toFinset)
    (cluster : List ℕ) (st : DState) (hnd : cluster.Nodup) (hne : cluster ≠ [])
    (hsound : Sound F R st) :
    ∃ v j st', deltaS fS fInd fMF indep mf cluster st = .ok ((v, j), st') ∧
      lookupD st'.dJ (clusterID cluster) = some j ∧
      DPost F R cluster st st' v :=
  deltaSF_spec fS fInd fMF F R indep mf hflag hF hR (cluster.length + 1) cluster st
    hnd hne (by omega) hsound

/-- C1: Inclusion-exclusion round-trip: for every non-empty duplicate-free
cluster B, after deltaS(B) has been computed with exactly one reference mode
active (from any sound memo state), the full analytic entropy S(B) equals
the reference entropy of B plus the sum of the memoized marginal
contributions over every non-empty subset C of B, including B itself.  The
hypotheses hF and hR express that the analytic entropies are functions of
the index set alone (the spec's determinism of ClusterAnalyticSolver). -/
theorem claim_C1_inclusion_exclusion_roundtrip
    (fS fInd fMF : List ℕ → ℚ × Mat) (F R : Finset ℕ → ℚ) (indep mf : Bool)
    (hflag : ((indep && mf) || (!indep && !mf)) = false)
    (hF : ∀ l, (fS l).1 = F l.toFinset)
    (hR : ∀ l, (if indep then fInd l else fMF l).1 = R l.toFinset)
    (B : List ℕ) (hnd : B.Nodup) (hne : B ≠ [])
    (st : DState) (hsound : Sound F R st)
    (v : ℚ × Mat) (st' : DState)
    (hrun : deltaS fS fInd fMF indep mf B st = .ok (v, st')) :
    (fS B).1 = (if indep then fInd B else fMF B).1 +
      ∑ C ∈ B.toFinset.powerset.erase ∅,
        ((lookupD st'.dS (sortKey C)).getD 0) := by
  obtain ⟨v0, j0, st0, heval, hlookJ, post⟩ :=
    deltaS_spec fS fInd fMF F R indep mf hflag hF hR B st hnd hne hsound
  rw [heval] at hrun
  have hpair : ((v0, j0), st0) = (v, st') := by injection hrun
  have hv : (v0, j0) = v := congrArg Prod.fst hpair
  have hst : st0 = st' := congrArg Prod.snd hpair
  subst hst
  have hB : B.toFinset ≠ ∅ := by
    intro hc
    cases B with
    | nil => exact hne rfl
    | cons a l =>
      rw [List.toFinset_cons] at hc
      exact absurd hc (Finset.insert_ne_empty _ _)
  have hsum : ∑ C ∈ B.toFinset.powerset.erase ∅,
      ((lookupD st0.dS (sortKey C)).getD 0)
      = ∑ C ∈ B.toFinset.powerset.erase ∅, dPure F R C := by
    refine Finset.sum_congr rfl ?_
    intro C hC
    rw [Finset.mem_erase, Finset.mem_powerset] at hC
    have hmem := post.subsPresent C hC.2 hC.1
    rw [sound_lookup_eq post.soundOut hmem]
    rfl
  rw [hsum, hF, hR, ← dPure_roundtrip F R B.toFinset hB]

/-- C2: Memoization idempotence and canonical identity: after a first
deltaS call on a duplicate-free non-empty cluster B from a sound state,
a second call on any reordering of B against the resulting memo state
returns exactly the stored pair, with the state (in particular the
instrumentation count of analytic-solver invocations) completely unchanged,
because the memo key is the sorted tuple of indices. -/
theorem claim_C2_memoization_idempotent
    (fS fInd fMF : List ℕ → ℚ × Mat) (F R : Finset ℕ → ℚ) (indep mf : Bool)
    (hflag : ((indep && mf) || (!indep && !mf)) = false)
    (hF : ∀ l, (fS l).1 = F l.toFinset)
    (hR : ∀ l, (if indep then fInd l else fMF l).1 = R l.toFinset)
    (B B2 : List ℕ) (hperm : List.Perm B2 B) (hnd : B.Nodup) (hne : B ≠ [])
    (st : DState) (hsound : Sound F R st)
    (v : ℚ × Mat) (st1 : DState)
    (hrun : deltaS fS fInd fMF indep mf B st = .ok (v, st1)) :
    lookupD st1.dS (clusterID B) = some v.1 ∧
    lookupD st1.dJ (clusterID B) = some v.2 ∧
    deltaS fS fInd fMF indep mf B2 st1 = .ok (v, st1) := by
  obtain ⟨v0, j0, st0, heval, hlookJ, post⟩ :=
    deltaS_spec fS fInd fMF F R indep mf hflag hF hR B st hnd hne hsound
  rw [heval] at hrun
  have hpair : ((v0, j0), st0) = (v, st1) := by injection hrun
  have hv : (v0, j0) = v := congrArg Prod.fst hpair
  have hst : st0 = st1 := congrArg Prod.snd hpair
  subst hst
  have hID : clusterID B2 = clusterID B := clusterID_eq_of_perm hperm
  have h1 : lookupD st0.dS (clusterID B) = some v.1 := by
    rw [← hv]
    exact post.lookS
  have h2 : lookupD st0.dJ (clusterID B) = some v.2 := by
    rw [← hv]
    exact hlookJ
  refine ⟨h1, h2, ?_⟩
  rw [deltaS, deltaSF, hflag]
  simp only [Bool.false_eq_true, if_false]
  rw [hID, h1, h2]

/-- C10: Subset-before-superset registry invariant: for every duplicate-free
non-empty cluster, when deltaS returns (started from a sound memo state, in
particular from fresh dictionaries), both memo dictionaries contain an entry
for the cluster identity and for the identity of every non-empty subset, and
every strict non-empty subset's entry sits at a strictly earlier position
than the cluster's own entry; since entries are only ever appended, position
order is storage order. -/
theorem claim_C10_subset_before_superset
    (fS fInd fMF : List ℕ → ℚ × Mat) (F R : Finset ℕ → ℚ) (indep mf : Bool)
    (hflag : ((indep && mf) || (!indep && !mf)) = false)
    (hF : ∀ l, (fS l).1 = F l.toFinset)
    (hR : ∀ l, (if indep then fInd l else fMF l).1 = R l.toFinset)
    (B : List ℕ) (hnd : B.Nodup) (hne : B ≠ [])
    (st : DState) (hsound : Sound F R st)
    (v : ℚ × Mat) (st' : DState)
    (hrun : deltaS fS fInd fMF indep mf B st = .ok (v, st')) :
    (∀ C : Finset ℕ, C ⊆ B.toFinset → C ≠ ∅ →
      sortKey C ∈ keyList st'.dS ∧ sortKey C ∈ keyList st'.dJ) ∧
    (∀ C : Finset ℕ, C ⊆ B.toFinset → C ≠ ∅ → C ≠ B.toFinset →
      posOf (keyList st'.dS) (sortKey C) < posOf (keyList st'.dS) (clusterID B) ∧
      posOf (keyList st'.dJ) (sortKey C) < posOf (keyList st'.dJ) (clusterID B)) := by
  obtain ⟨v0, j0, st0, heval, hlookJ, post⟩ :=
    deltaS_spec fS fInd fMF F R indep mf hflag hF hR B st hnd hne hsound
  rw [heval] at hrun
  have hpair : ((v0, j0), st0) = (v, st') := by injection hrun
  have hv : (v0, j0) = v := congrArg Prod.fst hpair
  have hst : st0 = st' := congrArg Prod.snd hpair
  subst hst
  have hkJ := post.soundOut.keysJ
  constructor
  · intro C hC hCne
    have hmem := post.subsPresent C hC hCne
    exact ⟨hmem, by rw [hkJ]; exact hmem⟩
  · intro C hC hCne hCneq
    have hBmem : clusterID B ∈ keyList st0.dS := (lookupD_mem post.lookS).2
    have hclosed := post.soundOut.closedKeys _ hBmem C
      (by rw [clusterID_toFinset]; exact hC) hCne
      (by rw [clusterID_toFinset]; exact hCneq)
    refine ⟨hclosed.2, ?_⟩
    rw [hkJ]
    exact hclosed.2

/-- C5 counterexample: the claim says subsets returns the empty list whenever
k ≤ 0, but for S = [] and k = 0 the size-equals-length branch fires first and
the code returns [S] = [[]]. -/
theorem claim_C5_counterexample :
    (0 : ℤ) ≤ 0 ∧ subsets ([] : List ℕ) 0 = .ok [[]] ∧
      subsets ([] : List ℕ) 0 ≠ .ok [] := by
  have hok : subsets ([] : List ℕ) 0 = .ok [[]] := by
    rw [subsets.eq_def]
    norm_num
  refine ⟨le_refl _, hok, ?_⟩
  intro h
  rw [hok] at h
  injection h with h2
  simp at h2

/-- C5 (amended): subsets(S, k) rejects duplicate inputs; for duplicate-free
S and 0 < k ≤ |S| it returns exactly C(|S|, k) subsets, pairwise distinct as
index sets and covering every size-k subset; for k ≤ 0 or k > |S| it returns
the empty list, except in the single degenerate case S = [] and k = 0, where
the size-equals-length rule takes precedence and it returns [S] = [[]]; for
k = |S| it returns S itself as the only subset; for k = 1 it returns each
element as a singleton. -/
theorem claim_C5_subsets_spec :
    (∀ S : List ℕ, ¬ S.Nodup → ∀ k : ℤ, subsets S k = .error ()) ∧
    (∀ S : List ℕ, S.Nodup →
      (∀ k : ℕ, 1 ≤ k → k ≤ S.length →
        ∃ L, subsets S (k : ℤ) = .ok L ∧
          L.length = Nat.choose S.length k ∧
          (L.map List.toFinset).Nodup ∧
          (L.map List.toFinset).toFinset = Finset.powersetCard k S.toFinset) ∧
      (∀ k : ℤ, (k ≤ 0 ∨ (S.length : ℤ) < k) → ¬(S = [] ∧ k = 0) →
        subsets S k = .ok []) ∧
      subsets S (S.length : ℤ) = .ok [S] ∧
      subsets S 1 = .ok (S.map (fun x => [x]))) := by
  refine ⟨fun S h k => subsets_not_nodup h k, fun S hs => ⟨?_, ?_, subsets_len hs,
    subsets_one hs⟩⟩
  · intro k h1 h2
    obtain ⟨L, hok, hel, hnd, hcov⟩ := subsets_main S hs k h1 h2
    exact ⟨L, hok, subsets_card hs hok hnd hcov, hnd, hcov⟩
  · intro k hk h2
    rcases hk with hk | hk
    · exact subsets_nonpos hs hk h2
    · exact subsets_gt hs hk

/-! ### Concrete instantiations used by the witnesses -/

/-- Witness full-entropy function: the square of the cardinality. -/
def Fw : Finset ℕ → ℚ := fun A => ((A.card * A.card : ℕ) : ℚ)

/-- Witness reference-entropy function: the cardinality. -/
def Rw : Finset ℕ → ℚ := fun A => (A.card : ℚ)

/-- Witness analytic solver: entropy Fw of the index set, a fixed matrix. -/
def fSw : List ℕ → ℚ × Mat := fun l => (Fw l.toFinset, [[1]])

/-- Witness independent reference. -/
def fIndw : List ℕ → ℚ × Mat := fun l => (Rw l.toFinset, [[2]])

/-- Witness mean-field reference (unused: independent mode is selected). -/
def fMFw : List ℕ → ℚ × Mat := fun _ => (0, [[3]])

/-- The memo state produced by deltaS on the cluster [0, 1] from fresh
dictionaries with the witness solver. -/
def memoSt01 : DState :=
  ⟨[([0], 0), ([1], 0), ([0, 1], 2)],
   [([0], [[-1]]), ([1], [[-1]]), ([0, 1], [[1]])], 3⟩

/-- Concrete run of deltaS on the cluster [0, 1] from fresh dictionaries. -/
theorem memoSt01_run :
    deltaS fSw fIndw fMFw true false [0, 1] ⟨[], [], 0⟩ =
      .ok (((2 : ℚ), [[1]]), memoSt01) := by
  norm_num [deltaS, deltaSF, strictSubsList, goSizes, subsets, goSubs, lookupD, clusterID,
    List.insertionSort, List.orderedInsert, matSub, memoSt01, fSw, fIndw, fMFw, Fw, Rw]
  intro h
  simp at h

theorem claim_C1_inclusion_exclusion_roundtrip_witness :
    (fSw [0, 1]).1 = (if true then fIndw [0, 1] else fMFw [0, 1]).1 +
      ∑ C ∈ ([0, 1] : List ℕ).toFinset.powerset.erase ∅,
        ((lookupD memoSt01.dS (sortKey C)).getD 0) :=
  claim_C1_inclusion_exclusion_roundtrip fSw fIndw fMFw Fw Rw true false rfl
    (fun _ => rfl) (fun _ => rfl) [0, 1] (by decide) (by decide)
    ⟨[], [], 0⟩ (sound_empty Fw Rw) (2, [[1]]) memoSt01 memoSt01_run

theorem claim_C2_memoization_idempotent_witness :
    lookupD memoSt01.dS (clusterID [0, 1]) = some (2 : ℚ) ∧
    lookupD memoSt01.dJ (clusterID [0, 1]) = some [[1]] ∧
    deltaS fSw fIndw fMFw true false [1, 0] memoSt01 =
      .ok (((2 : ℚ), [[1]]), memoSt01) :=
  claim_C2_memoization_idempotent fSw fIndw fMFw Fw Rw true false rfl
    (fun _ => rfl) (fun _ => rfl) [0, 1] [1, 0] (by decide) (by decide) (by decide)
    ⟨[], [], 0⟩ (sound_empty Fw Rw) (2, [[1]]) memoSt01 memoSt01_run

theorem claim_C10_subset_before_superset_witness :
    (sortKey {0} ∈ keyList memoSt01.dS ∧ sortKey {0} ∈ keyList memoSt01.dJ) ∧
    posOf (keyList memoSt01.dS) (sortKey {0}) <
      posOf (keyList memoSt01.dS) (clusterID [0, 1]) :=
  have h := claim_C10_subset_before_superset fSw fIndw fMFw Fw Rw true false rfl
    (fun _ => rfl) (fun _ => rfl) [0, 1] (by decide) (by decide)
    ⟨[], [], 0⟩ (sound_empty Fw Rw) (2, [[1]]) memoSt01 memoSt01_run
  ⟨h.1 {0} (by decide) (by decide),
   (h.2 {0} (by decide) (by decide) (by decide)).1⟩

theorem claim_C5_subsets_spec_witness :
    subsets [0, 0] 1 = .error () ∧ subsets [0, 1, 2] 3 = .ok [[0, 1, 2]] ∧
    subsets [0, 1, 2] 1 = .ok [[0], [1], [2]] :=
  ⟨claim_C5_subsets_spec.1 [0, 0] (by decide) 1,
   (claim_C5_subsets_spec.2 [0, 1, 2] (by decide)).2.2.1,
   (claim_C5_subsets_spec.2 [0, 1, 2] (by decide)).2.2.2⟩

/-! ### The solve level: external collaborators, growth loop and assembly -/

/-- External analytic routines consumed by the core (the meanFieldIsing
module, SmeanField and np.log are not part of src/): threaded as an abstract
collaborator, matching the spec's ClusterAnalyticSolver interface of pure,
side-effect-free functions of their arguments.  findJmatrixAnalytic stands
for meanFieldIsing.findJmatrixAnalytic_CoocMat(coocMatCluster, Jinit=None,
priorLmbda, numSamples); analyticEntropy for meanFieldIsing.analyticEntropy;
smeanfield for SmeanField(cluster, coocMat, meanFieldPriorLmbda,
numSamples). -/
structure Oracle where
  log : ℚ → ℚ
  findJmatrixAnalytic : Mat → ℚ → Option ℚ → Mat
  analyticEntropy : Mat → ℚ
  smeanfield : List ℕ → Mat → ℚ → Option ℚ → ℚ × Mat

/-- Modelled from the spec: meanFieldIsing.coocCluster (not in src/)
extracts the cluster's co-occurrence sub-matrix (spec section 4.1: the
analytic solver receives the cluster's co-occurrence sub-matrix), rows and
columns at the cluster's indices in cluster order. -/
def coocCluster (coocMat : Mat) (cluster : List ℕ) : Mat :=
  cluster.map (fun i => cluster.map (fun j => entry coocMat i j))

/-- Modelled from the spec: meanFieldIsing.symmetrizeUsingUpper (not in
src/) mirrors the upper triangle onto the lower half, used by Sindependent
in case an upper-triangular co-occurrence matrix is given (source comment at
lines 988-989). -/
def symmetrizeUsingUpper (M : Mat) : Mat :=
  (List.range M.length).map (fun i => (List.range M.length).map (fun j =>
    if i ≤ j then entry M i j else entry M j i))

/-- Modelled from the spec: meanFieldIsing.JfullFromCluster (not in src/) is
the spec's embedInFull (section 4.1): places the cluster's interaction
sub-matrix into an N x N matrix that is zero outside the cluster's index
set. -/
def JfullFromCluster (J : Mat) (cluster : List ℕ) (N : ℕ) : Mat :=
  (List.range N).map (fun i => (List.range N).map (fun j =>
    if i ∈ cluster ∧ j ∈ cluster then
      entry J (List.indexOf i cluster) (List.indexOf j cluster) else 0))

/-- Embedding of ClusterExpansion.S (src/solvers.py lines 934-978): the
full pairwise entropy and embedded interaction matrix of a cluster.  The
closed forms for sizes 1 and 2 are taken only when useAnalyticResults is
true; otherwise the numerical analytic solver supplies J whatever the
cluster size.  Raises on an empty cluster.  The unused source locals Jii1
and Jjj1 (lines 957-958) are omitted; external calls go through the
oracle. -/
def Sfun (O : Oracle) (cluster : List ℕ) (coocMat : Mat)
    (useAnalyticResults : Bool) (priorLmbda : ℚ) (numSamples : Option ℚ) :
    Except Unit (ℚ × Mat) :=
  if cluster.length = 0 then .error ()
  else if cluster.length = 1 ∧ useAnalyticResults then
    let p := entry coocMat (cluster.getD 0 0) (cluster.getD 0 0)
    let J : Mat := [[-(O.log (p / (1 - p)))]]
    .ok (O.analyticEntropy J, JfullFromCluster J cluster coocMat.length)
  else if cluster.length = 2 ∧ useAnalyticResults then
    let i := min (cluster.getD 0 0) (cluster.getD 1 0)
    let j := max (cluster.getD 0 0) (cluster.getD 1 0)
    let pii := entry coocMat i i
    let pjj := entry coocMat j j
    let pij := entry coocMat i j
    let Jii := -(O.log ((pii - pij) / (1 - pii - pjj + pij)))
    let Jjj := -(O.log ((pjj - pij) / (1 - pii - pjj + pij)))
    let Jij := -(O.log pij) + O.log (pii - pij) + O.log (pjj - pij)
      - O.log (1 - pii - pjj + pij)
    let J : Mat := [[Jii, (1/2) * Jij], [(1/2) * Jij, Jjj]]
    .ok (O.analyticEntropy J, JfullFromCluster J cluster coocMat.length)
  else
    let coocMatCluster := coocCluster coocMat cluster
    let J := O.findJmatrixAnalytic coocMatCluster priorLmbda numSamples
    .ok (O.analyticEntropy J, JfullFromCluster J cluster coocMat.length)

/-- The S function exactly as deltaS invokes it (src line 1036):
useAnalyticResults is not passed and keeps its default False, so the
numerical solver path is taken for every cluster size.  The error case of
Sfun is the empty cluster only, which deltaS's call site has already
excluded; it is totalized with a dummy value. -/
def SforDeltaS (O : Oracle) (coocMat : Mat) (priorLmbda : ℚ)
    (numSamples : Option ℚ) (cluster : List ℕ) : ℚ × Mat :=
  match Sfun O cluster coocMat false priorLmbda numSamples with
  | .ok r => r
  | .error _ => (0, [])

/-- Embedding of ClusterExpansion.Sindependent (src/solvers.py lines
984-1006): the independent-variable reference entropy and diagonal
interaction matrix of a cluster, embedded into full size. -/
def Sindependent (O : Oracle) (cluster : List ℕ) (coocMat : Mat) : ℚ × Mat :=
  let coocMatCluster := symmetrizeUsingUpper (coocCluster coocMat cluster)
  let freqs := diagOf coocMatCluster
  let h := freqs.map (fun f => -(O.log (f / (1 - f))))
  let Jind := diagMat h
  let Sinds := freqs.map (fun f => -f * O.log f - (1 - f) * O.log (1 - f))
  (Sinds.sum, JfullFromCluster Jind cluster coocMat.length)

/-- Modelled from the spec: Solver.coocurrence_matrix lives in the Solver
base family outside src/.  Spec sections 2-3 and 6: from a binary 0/1
sample matrix it returns the symmetric N x N matrix whose diagonal entry i
is the frequency of variable i and whose entry (i, j) is the joint frequency
of variables i and j. -/
def coocurrence_matrix (X01 : List (List ℚ)) : Mat :=
  let n := X01.length
  let N := (X01.headD []).length
  (List.range N).map (fun i => (List.range N).map (fun j =>
    (X01.map (fun row => (row.getD i 0) * (row.getD j 0))).sum / (n : ℚ)))

/-- The co-occurrence matrix as solve builds it from a plus-minus-one data
set X (src line 1140): coocurrence_matrix((X+1)/2). -/
def solveCooc (X : List (List ℚ)) : Mat :=
  coocurrence_matrix (X.map (List.map (fun v => (v + 1) / 2)))

/-- meanFieldIsing.zeroDiag (not in src/, named by its call at line 1203):
the matrix with its diagonal replaced by zeros. -/
def zeroDiag (M : Mat) : Mat :=
  (List.range M.length).map (fun i => (List.range M.length).map (fun j =>
    if i = j then 0 else entry M i j))

/-- scipy.spatial.distance.squareform on a square hollow matrix (external):
the strictly-upper-triangular entries flattened row-major. -/
def squareformUpper (M : Mat) : List ℚ :=
  ((List.range M.length).map (fun i =>
    (List.range (M.length - (i + 1))).map (fun k => entry M i (i + 1 + k)))).flatten

/-- Modelled from the spec: utils.convert_params (not in src/).  Spec
section 6 describes the conversion consumed by solve as the packing of the
diagonal field vector and the flattened coupling values into the canonical
flattened parameter representation, the sign convention (negation, doubled
couplings) being produced by the calling code at lines 1201-1204; this is
the concat=True path used there. -/
def convert_params (h : List ℚ) (Jflat : List ℚ) : List ℚ := h ++ Jflat

/-- The output conversion of solve (src/solvers.py lines 1201-1204):
h = -J.diagonal(); J = -zeroDiag(J);
multipliers = convert_params(h, squareform(J)*2, concat=True). -/
def solveConvert (J : Mat) : List ℚ :=
  convert_params ((diagOf J).map (fun a => -a))
    ((squareformUpper (matNeg (zeroDiag J))).map (fun a => a * 2))

/-- np.intersect1d (external): the sorted duplicate-free list of common
values. -/
def intersect1d (a b : List ℕ) : List ℕ :=
  List.insertionSort (fun x y => x ≤ y) (a.dedup.filter (fun x => decide (x ∈ b)))

/-- list(np.sort(np.union1d(a, b))) (src line 1169-1170): the sorted
duplicate-free union. -/
def sortUnion (a b : List ℕ) : List ℕ :=
  List.insertionSort (fun x y => x ≤ y) (a ++ b).dedup

/-- The deltaS step exactly as solve's growth loop invokes it (src lines
1172-1179), at the canonical fuel. -/
def solveStep (fS fInd fMF : List ℕ → ℚ × Mat) (indep mf : Bool) :
    List ℕ → DState → Except Unit ((ℚ × Mat) × DState) :=
  fun c st => deltaSF fS fInd fMF indep mf (c.length + 1) c st

/-- The inner pair loop of solve (src lines 1165-1182) for a fixed first
cluster gamma1 over the later clusters of the generation: compute
intersection and sorted union of each pair; when the intersection has
exactly size-1 elements, evaluate deltaS on the union (each evaluated union
is recorded in the instrumentation list ev) and append the union to the next
generation when its contribution magnitude clears the threshold and it is
not already present. -/
def growInner (step : List ℕ → DState → Except Unit ((ℚ × Mat) × DState))
    (T : ℚ) (size : ℕ) (gamma1 : List ℕ) :
    List (List ℕ) → List (List ℕ) → DState → List (List ℕ) →
    Except Unit (List (List ℕ) × DState × List (List ℕ))
  | [], next, st, ev => .ok (next, st, ev)
  | gamma2 :: rest, next, st, ev =>
    if (intersect1d gamma1 gamma2).length = size - 1 then
      match step (sortUnion gamma1 gamma2) st with
      | .error e => .error e
      | .ok (d, st') =>
        let next' := if |d.1| > T ∧ sortUnion gamma1 gamma2 ∉ next
          then next ++ [sortUnion gamma1 gamma2] else next
        growInner step T size gamma1 rest next' st' (ev ++ [sortUnion gamma1 gamma2])
    else growInner step T size gamma1 rest next st ev

/-- The outer pair loop of solve (src lines 1164-1182): i ranging over the
generation, j over the later positions. -/
def growOuter (step : List ℕ → DState → Except Unit ((ℚ × Mat) × DState))
    (T : ℚ) (size : ℕ) :
    List (List ℕ) → List (List ℕ) → DState → List (List ℕ) →
    Except Unit (List (List ℕ) × DState × List (List ℕ))
  | [], next, st, ev => .ok (next, st, ev)
  | gamma1 :: rest, next, st, ev =>
    match growInner step T size gamma1 rest next st ev with
    | .error e => .error e
    | .ok (next', st', ev') => growOuter step T size rest next' st' ev'

/-- The while loop of solve (src lines 1158-1183): while the current
generation is non-empty, create the next generation empty, fill it by the
double pair loop, and advance the size; the returned list of generations
includes the final empty generation, exactly as the Python dict keeps the
empty clusters[size+1] created in the last iteration.  Fuel bounds the
number of iterations; the loop's natural termination (an empty generation)
is reached within any fuel of at least N + 2 on N variables. -/
def growLoop (step : List ℕ → DState → Except Unit ((ℚ × Mat) × DState))
    (T : ℚ) :
    ℕ → ℕ → List (List ℕ) → List (List (List ℕ)) → DState →
    Except Unit (List (List (List ℕ)) × DState)
  | 0, _, _, _, _ => .error ()
  | fuel + 1, size, cur, acc, st =>
    if cur.isEmpty then .ok (acc ++ [cur], st)
    else
      match growOuter step T size cur [] st [] with
      | .error e => .error e
      | .ok (next, st', _ev) => growLoop step T fuel (size + 1) next (acc ++ [cur]) st'

/-- The assembly loops of solve (src lines 1195-1199): add every retained
cluster's memoized entropy and interaction contribution; a missing key is a
KeyError. -/
def assembleGen (st : DState) : List (List ℕ) → ℚ → Mat → Except Unit (ℚ × Mat)
  | [], ent, J => .ok (ent, J)
  | c :: cs, ent, J =>
    match lookupD st.dS (clusterID c), lookupD st.dJ (clusterID c) with
    | some ds, some dj => assembleGen st cs (ent + ds) (matAdd J dj)
    | _, _ => .error ()

def assemble (st : DState) : List (List (List ℕ)) → ℚ → Mat → Except Unit (ℚ × Mat)
  | [], ent, J => .ok (ent, J)
  | gen :: rest, ent, J =>
    match assembleGen st gen ent J with
    | .error e => .error e
    | .ok r => assemble st rest r.1 r.2

/-- Embedding of ClusterExpansion.solve (src/solvers.py lines 1106-1209),
"Algorithm 2", with return_all=True (the return_all=False path returns just
the second component).  cluster=None (so the full index range is used);
deltaSdict/deltaJdict enter as the initial state st0 (fresh dictionaries
when empty); verbose flags only print; meanFieldPriorLmbda is left at its
default priorLmbda.  Note: the only reference-flag check in solve itself is
the both-True test of line 1145; the neither-flag case is not checked
here.  Fuel bounds the growth loop as in growLoop. -/
def solveACE (O : Oracle) (X : List (List ℚ)) (threshold : ℚ)
    (priorLmbda : ℚ) (numSamples : Option ℚ)
    (meanFieldRef independentRef : Bool)
    (st0 : DState) (fuel : ℕ) :
    Except Unit (ℚ × List ℚ × List (List (List ℕ)) × DState) :=
  let coocMat := solveCooc X
  if independentRef && meanFieldRef then .error ()
  else
    let N := coocMat.length
    let cluster := List.range N
    let step := solveStep (SforDeltaS O coocMat priorLmbda numSamples)
      (fun c => Sindependent O c coocMat)
      (fun c => O.smeanfield c coocMat priorLmbda numSamples)
      independentRef meanFieldRef
    match growLoop step threshold fuel 1 (cluster.map (fun i => [i])) [] st0 with
    | .error e => .error e
    | .ok (gens, st') =>
      let entJ0 : ℚ × Mat :=
        if independentRef then Sindependent O cluster coocMat
        else if meanFieldRef then O.smeanfield cluster coocMat priorLmbda numSamples
        else (0, zerosMat N N)
      match assemble st' gens entJ0.1 entJ0.2 with
      | .error e => .error e
      | .ok r => .ok (r.1, solveConvert r.2, gens, st')

/-- Parameter names of ClusterExpansion.solve, in source order
(src/solvers.py lines 1106-1110). -/
def solveOptions : List String :=
  ["X", "threshold", "cluster", "deltaSdict", "deltaJdict", "verbose",
   "priorLmbda", "numSamples", "meanFieldRef", "independentRef",
   "veryVerbose", "meanFieldPriorLmbda", "return_all"]

/-- Parameter names of ClusterExpansion.iterate_cluster_expansion, the
threshold-sweeping driver (src/solvers.py lines 1213-1230), which
unconditionally raises a NotImplemented exception inside its loop (line
1286) before any fitting. -/
def iterateClusterExpansionOptions : List String :=
  ["coocMat", "retall", "epsThreshold", "gammaPrime", "logThresholdRange",
   "numThresholds", "verbose", "veryVerbose", "numSamplesData",
   "numSamplesError", "saveSamplesAtEveryStep", "numProcs",
   "minimizeIndependent", "minimizeCovariance", "maxMaxClusterSize",
   "fileStr", "meanFieldGammaPrime", "minThreshold", "bruteForceMin"]

/-- C8 counterexample: solve recognizes no maxClusterSize option: it is not
among solve's parameters. -/
theorem claim_C8_counterexample : "maxClusterSize" ∉ solveOptions := by
  decide

/-- C8 (amended): solve accepts no maxClusterSize option and its growth loop
stops only through the natural empty-generation condition; a related cap,
maxMaxClusterSize, exists only in iterate_cluster_expansion, the
threshold-sweeping driver that unconditionally raises NotImplemented inside
its loop, where it would stop the threshold sweep (not the grower) and fall
back to the best threshold found so far. -/
theorem claim_C8_no_max_cluster_size_cap :
    "maxClusterSize" ∉ solveOptions ∧
    "maxMaxClusterSize" ∈ iterateClusterExpansionOptions ∧
    (∀ step T fuel size acc st,
      growLoop step T (fuel + 1) size [] acc st = .ok (acc ++ [[]], st)) := by
  refine ⟨by decide, by decide, ?_⟩
  intro step T fuel size acc st
  rw [growLoop]
  simp

/-! ### Matrix entry lemmas for the output conversion -/

theorem getD_map_range {α : Type} (f : ℕ → α) {N i : ℕ} (d : α) (h : i < N) :
    ((List.range N).map f).getD i d = f i := by
  rw [List.getD_eq_getElem?_getD, List.getElem?_map, List.getElem?_range h]
  rfl

theorem matNeg_zeroDiag (M : Mat) :
    matNeg (zeroDiag M) = (List.range M.length).map (fun i =>
      (List.range M.length).map (fun j => -(if i = j then 0 else entry M i j))) := by
  rw [zeroDiag, matNeg, List.map_map]
  refine List.map_congr_left ?_
  intro i _
  simp only [Function.comp_apply, List.map_map]
  rfl

/-- C9: Output parameter conversion: for an assembled N x N interaction
matrix J, solve's conversion block produces exactly the negated diagonal as
the fields, concatenated with the negated and doubled strictly-upper
couplings in row-major order, and no other scaling (convert_params is
modelled from the spec as the concat=True packing). -/
theorem claim_C9_output_conversion (N : ℕ) (J : Mat) (hlen : J.length = N) :
    solveConvert J = ((List.range N).map (fun i => -(entry J i i))) ++
      (((List.range N).map (fun i => (List.range (N - (i + 1))).map
        (fun k => -(2 * entry J i (i + 1 + k))))).flatten) := by
  rw [solveConvert, convert_params]
  congr 1
  · rw [diagOf, hlen, List.map_map]
    rfl
  · rw [squareformUpper, matNeg_zeroDiag J, List.length_map, List.length_range, hlen,
      List.map_flatten]
    congr 1
    rw [List.map_map]
    refine List.map_congr_left ?_
    intro i hi
    rw [List.mem_range] at hi
    simp only [Function.comp_apply, List.map_map]
    refine List.map_congr_left ?_
    intro k hk
    rw [List.mem_range] at hk
    simp only [Function.comp_apply]
    have hineq : i + 1 + k < N := by omega
    rw [entry, getD_map_range _ _ (by omega : i < N), getD_map_range _ _ hineq]
    have hne : ¬ (i = i + 1 + k) := by omega
    rw [if_neg hne]
    ring

theorem claim_C9_output_conversion_witness :
    solveConvert [[1, 2], [3, 4]] =
      ((List.range 2).map (fun i => -(entry [[1, 2], [3, 4]] i i))) ++
      (((List.range 2).map (fun i => (List.range (2 - (i + 1))).map
        (fun k => -(2 * entry [[1, 2], [3, 4]] i (i + 1 + k))))).flatten) :=
  claim_C9_output_conversion 2 [[1, 2], [3, 4]] rfl

/-- A concrete oracle for closed runs: log identically 0, the numerical
solver returning the constant matrix [[7]], the analytic entropy reading
entry (0, 0), a fixed mean-field reference. -/
def O0 : Oracle :=
  ⟨fun _ => 0, fun _ _ _ => [[7]], fun M => entry M 0 0, fun _ _ _ _ => (0, [[0]])⟩

/-- C3 counterexample: with both reference flags False and a data set with
no variables, solve raises no error at all: it returns successfully (entropy
0, empty multipliers, the single empty generation, untouched memo
dictionaries), refuting the claim that both-False always raises before any
entropy computation. -/
theorem claim_C3_counterexample :
    solveACE O0 [[]] 1 0 none false false ⟨[], [], 0⟩ 2 =
      .ok (0, [], [[]], ⟨[], [], 0⟩) := rfl

theorem solveStep_bothFalse (fS fInd fMF : List ℕ → ℚ × Mat) (c : List ℕ)
    (st : DState) : solveStep fS fInd fMF false false c st = .error () := by
  rw [solveStep, deltaSF]
  simp

theorem growLoop_bothFalse_error (fS fInd fMF : List ℕ → ℚ × Mat) (T : ℚ)
    {x y : ℕ} (hxy : x ≠ y) (tail : List (List ℕ))
    (acc : List (List (List ℕ))) (st : DState) (fuel : ℕ) :
    growLoop (solveStep fS fInd fMF false false) T (fuel + 1) 1
      ([x] :: [y] :: tail) acc st = .error () := by
  rw [growLoop]
  rw [if_neg (by simp)]
  rw [growOuter, growInner]
  have hint : (intersect1d [x] [y]).length = 1 - 1 := by
    rw [intersect1d]
    have hf : ([x].dedup.filter (fun a => decide (a ∈ [y]))) = [] := by
      simp [List.dedup, hxy]
    rw [hf]
    rfl
  rw [if_pos hint, solveStep_bothFalse]

/-- C3 (amended): solve itself checks only the both-True flag combination,
which errors immediately; with both flags False solve performs no check of
its own and proceeds into the growth loop, where the first deltaS invocation
(which exists whenever the data set has at least two variables) raises the
reference-mode error before any entropy computation; with fewer variables no
flag error is raised at all (with zero variables solve completes). -/
theorem claim_C3_reference_mode_checks (O : Oracle) (X : List (List ℚ))
    (T priorLmbda : ℚ) (ns : Option ℚ) (st0 : DState) (fuel : ℕ) :
    (solveACE O X T priorLmbda ns true true st0 fuel = .error ()) ∧
    (2 ≤ (solveCooc X).length →
      solveACE O X T priorLmbda ns false false st0 (fuel + 1) = .error ()) := by
  constructor
  · rw [solveACE]
    simp
  · intro hN
    obtain ⟨n, hn⟩ : ∃ n, (solveCooc X).length = n + 2 :=
      ⟨(solveCooc X).length - 2, by omega⟩
    obtain ⟨tail, htail⟩ : ∃ tail,
        (List.range ((solveCooc X).length)).map (fun i => ([i] : List ℕ)) =
          [0] :: [1] :: tail := by
      rw [hn, List.range_succ_eq_map, List.range_succ_eq_map]
      refine ⟨(List.range n).map (fun i => [Nat.succ (Nat.succ i)]), ?_⟩
      simp [List.map_map]
    rw [solveACE]
    simp only [Bool.and_self, Bool.and_false, Bool.false_and, if_false,
      Bool.false_eq_true, ite_false]
    rw [htail, growLoop_bothFalse_error _ _ _ _ (by decide) tail [] st0 fuel]

/-- C3 witness: on the two-variable data set [[1, -1]] with oracle O0, the
both-True call errors and the both-False call errors at the first deltaS. -/
theorem claim_C3_reference_mode_checks_witness :
    2 ≤ (solveCooc [[1, -1]]).length ∧
    solveACE O0 [[1, -1]] 1 0 none true true ⟨[], [], 0⟩ 4 = .error () ∧
    solveACE O0 [[1, -1]] 1 0 none false false ⟨[], [], 0⟩ 5 = .error () := by
  have h2 : 2 ≤ (solveCooc [[1, -1]]).length := by decide
  have h := claim_C3_reference_mode_checks O0 [[1, -1]] 1 0 none ⟨[], [], 0⟩ 4
  exact ⟨h2, h.1, h.2 h2⟩

/-- C6 counterexample: deltaS invokes S with useAnalyticResults left at its
default False (src line 1036), so even for a size-1 cluster the numerical
analytic solver supplies the result: with an oracle whose numerical solver
returns [[7]] and whose log is identically 0 on the co-occurrence matrix
[[1/2]], the size-1 closed form would give (0, [[0]]) but S as invoked by
deltaS gives (7, [[7]]). -/
theorem claim_C6_counterexample :
    SforDeltaS O0 [[1/2]] 0 none [0] = (7, [[7]]) ∧
    Sfun O0 [0] [[1/2]] true 0 none = .ok (0, [[0]]) ∧
    ((7 : ℚ), ([[7]] : Mat)) ≠ ((0 : ℚ), ([[0]] : Mat)) := by
  refine ⟨rfl, ?_, ?_⟩
  · norm_num [Sfun, O0, JfullFromCluster, coocCluster, entry]
    decide
  · simp only [ne_eq, Prod.mk.injEq, not_and]
    intro h
    norm_num at h

/-- C6 (amended): the closed forms for clusters of sizes 1 and 2 exist in S
but are taken only when useAnalyticResults is True; deltaS calls S with the
flag unset (False by default), so the numerical analytic mean-field solver
supplies the interaction matrix for every cluster size, including sizes 1
and 2. -/
theorem claim_C6_closed_forms_gated (O : Oracle) (coocMat : Mat) (p : ℚ)
    (ns : Option ℚ) :
    (∀ cluster : List ℕ, cluster ≠ [] →
      SforDeltaS O coocMat p ns cluster =
        (O.analyticEntropy (O.findJmatrixAnalytic (coocCluster coocMat cluster) p ns),
         JfullFromCluster (O.findJmatrixAnalytic (coocCluster coocMat cluster) p ns)
           cluster coocMat.length)) ∧
    (∀ i : ℕ, Sfun O [i] coocMat true p ns =
      .ok (O.analyticEntropy
             [[-(O.log (entry coocMat i i / (1 - entry coocMat i i)))]],
           JfullFromCluster
             [[-(O.log (entry coocMat i i / (1 - entry coocMat i i)))]]
             [i] coocMat.length)) := by
  constructor
  · intro cluster hne
    have h0 : ¬ (cluster.length = 0) := by
      cases cluster with
      | nil => exact absurd rfl hne
      | cons a l => simp
    rw [SforDeltaS, Sfun, if_neg h0, if_neg (by simp), if_neg (by simp)]
  · intro i
    rw [Sfun, if_neg (by simp), if_pos (by simp)]
    rfl

theorem claim_C6_closed_forms_gated_witness :
    SforDeltaS O0 [[1/2]] 0 none [5] =
      (O0.analyticEntropy (O0.findJmatrixAnalytic (coocCluster [[1/2]] [5]) 0 none),
       JfullFromCluster (O0.findJmatrixAnalytic (coocCluster [[1/2]] [5]) 0 none)
         [5] (1 : ℕ)) :=
  (claim_C6_closed_forms_gated O0 [[1/2]] 0 none).1 [5] (by decide)

/-! ### Properties of the pair-merge primitives -/

theorem sortUnion_nodup (a b : List ℕ) : (sortUnion a b).Nodup :=
  (List.perm_insertionSort _ _).nodup_iff.mpr (List.nodup_dedup _)

theorem sortUnion_toFinset (a b : List ℕ) :
    (sortUnion a b).toFinset = a.toFinset ∪ b.toFinset := by
  rw [sortUnion, List.toFinset_eq_of_perm _ _ (List.perm_insertionSort _ _)]
  ext x
  simp [List.mem_dedup]

theorem sortUnion_ne_nil {a : List ℕ} (b : List ℕ) (h : a ≠ []) :
    sortUnion a b ≠ [] := by
  intro hc
  cases a with
  | nil => exact h rfl
  | cons x l =>
    have hx : x ∈ sortUnion (x :: l) b := by
      have hmem : x ∈ ((x :: l) ++ b).dedup := List.mem_dedup.mpr (by simp)
      exact ((List.perm_insertionSort _ _).mem_iff).mpr hmem
    rw [hc] at hx
    simp at hx

theorem sortUnion_sorted (a b : List ℕ) :
    (sortUnion a b).Sorted (fun x y => x ≤ y) :=
  List.sorted_insertionSort _ _

theorem sortUnion_comm (a b : List ℕ) : sortUnion a b = sortUnion b a := by
  refine List.eq_of_perm_of_sorted ?_ (sortUnion_sorted a b) (sortUnion_sorted b a)
  refine List.perm_of_nodup_nodup_toFinset_eq (sortUnion_nodup a b) (sortUnion_nodup b a) ?_
  rw [sortUnion_toFinset, sortUnion_toFinset, Finset.union_comm]

theorem intersect1d_nodup (a b : List ℕ) : (intersect1d a b).Nodup :=
  (List.perm_insertionSort _ _).nodup_iff.mpr ((List.nodup_dedup a).filter _)

theorem intersect1d_toFinset (a b : List ℕ) :
    (intersect1d a b).toFinset = a.toFinset ∩ b.toFinset := by
  rw [intersect1d, List.toFinset_eq_of_perm _ _ (List.perm_insertionSort _ _)]
  ext x
  simp [List.mem_dedup, List.mem_filter]

theorem intersect1d_length_comm (a b : List ℕ) :
    (intersect1d a b).length = (intersect1d b a).length := by
  refine List.Perm.length_eq ?_
  refine List.perm_of_nodup_nodup_toFinset_eq (intersect1d_nodup a b)
    (intersect1d_nodup b a) ?_
  rw [intersect1d_toFinset, intersect1d_toFinset, Finset.inter_comm]

/-- The unions of qualifying pairs of a generation, in the order the double
loop of solve visits them: each cluster paired with every later cluster,
kept when the intersection has exactly size-1 elements. -/
def qualifyingUnions (size : ℕ) : List (List ℕ) → List (List ℕ)
  | [] => []
  | gamma1 :: rest =>
    ((rest.filter (fun gamma2 =>
        (intersect1d gamma1 gamma2).length = size - 1)).map
      (fun gamma2 => sortUnion gamma1 gamma2)) ++ qualifyingUnions size rest

theorem mem_qualifyingUnions_exists {size : ℕ} {gen : List (List ℕ)}
    {U : List ℕ} (h : U ∈ qualifyingUnions size gen) :
    ∃ a b, a ∈ gen ∧ b ∈ gen ∧ (intersect1d a b).length = size - 1 ∧
      U = sortUnion a b := by
  induction gen with
  | nil => simp [qualifyingUnions] at h
  | cons gamma1 rest ih =>
    rw [qualifyingUnions] at h
    rcases List.mem_append.mp h with h1 | h2
    · simp only [List.mem_map, List.mem_filter] at h1
      obtain ⟨g2, ⟨hg2, hlen⟩, rfl⟩ := h1
      exact ⟨gamma1, g2, List.mem_cons_self _ _, List.mem_cons_of_mem _ hg2,
        by simpa using hlen, rfl⟩
    · obtain ⟨a, b, ha, hb, hl, hu⟩ := ih h2
      exact ⟨a, b, List.mem_cons_of_mem _ ha, List.mem_cons_of_mem _ hb, hl, hu⟩

theorem mem_qualifyingUnions_iff {size : ℕ} {gen : List (List ℕ)}
    (hnd : gen.Nodup) {U : List ℕ} :
    U ∈ qualifyingUnions size gen ↔
      ∃ a b, a ∈ gen ∧ b ∈ gen ∧ a ≠ b ∧
        (intersect1d a b).length = size - 1 ∧ U = sortUnion a b := by
  induction gen with
  | nil => simp [qualifyingUnions]
  | cons gamma1 rest ih =>
    have hg1 : gamma1 ∉ rest := (List.nodup_cons.mp hnd).1
    have hrest : rest.Nodup := (List.nodup_cons.mp hnd).2
    rw [qualifyingUnions]
    constructor
    · intro h
      rcases List.mem_append.mp h with h1 | h2
      · simp only [List.mem_map, List.mem_filter] at h1
        obtain ⟨g2, ⟨hg2, hlen⟩, rfl⟩ := h1
        refine ⟨gamma1, g2, List.mem_cons_self _ _, List.mem_cons_of_mem _ hg2,
          ?_, by simpa using hlen, rfl⟩
        intro hc
        rw [hc] at hg1
        exact hg1 hg2
      · obtain ⟨a, b, ha, hb, hne, hl, hu⟩ := (ih hrest).mp h2
        exact ⟨a, b, List.mem_cons_of_mem _ ha, List.mem_cons_of_mem _ hb, hne, hl, hu⟩
    · rintro ⟨a, b, ha, hb, hne, hl, rfl⟩
      rcases List.mem_cons.mp ha with rfl | ha2
      · -- a is the head; then b is in the tail
        have hb2 : b ∈ rest := by
          rcases List.mem_cons.mp hb with rfl | hb2
          · exact absurd rfl hne
          · exact hb2
        refine List.mem_append_left _ ?_
        simp only [List.mem_map, List.mem_filter]
        exact ⟨b, ⟨hb2, by simpa using hl⟩, rfl⟩
      · rcases List.mem_cons.mp hb with rfl | hb2
        · -- b is the head; flip the pair using commutativity
          refine List.mem_append_left _ ?_
          simp only [List.mem_map, List.mem_filter]
          refine ⟨a, ⟨ha2, ?_⟩, sortUnion_comm b a⟩
          rw [intersect1d_length_comm]
          simpa using hl
        · exact List.mem_append_right _ ((ih hrest).mpr ⟨a, b, ha2, hb2, hne, hl, rfl⟩)

/-! ### Specification of the growth double loop -/

theorem growInner_spec (F R : Finset ℕ → ℚ)
    (step : List ℕ → DState → Except Unit ((ℚ × Mat) × DState))
    (hstep : ∀ c st, c.Nodup → c ≠ [] → Sound F R st →
      ∃ v j st', step c st = .ok ((v, j), st') ∧ v = dPure F R c.toFinset ∧
        Sound F R st')
    (T : ℚ) (size : ℕ) (gamma1 : List ℕ)
    (_h1nd : gamma1.Nodup) (h1ne : gamma1 ≠ []) :
    ∀ cand next st ev, (∀ c ∈ cand, c.Nodup ∧ c ≠ []) → Sound F R st →
    ∃ next2 st2 ev2,
      growInner step T size gamma1 cand next st ev = .ok (next2, st2, ev2) ∧
      ev2 = ev ++ (cand.filter (fun g2 =>
        (intersect1d gamma1 g2).length = size - 1)).map
        (fun g2 => sortUnion gamma1 g2) ∧
      Sound F R st2 ∧
      (∀ U, U ∈ next2 ↔ U ∈ next ∨
        (U ∈ (cand.filter (fun g2 => (intersect1d gamma1 g2).length = size - 1)).map
          (fun g2 => sortUnion gamma1 g2) ∧ |dPure F R U.toFinset| > T)) ∧
      (next.Nodup → next2.Nodup) := by
  intro cand
  induction cand with
  | nil =>
    intro next st ev _ hsound
    exact ⟨next, st, ev, rfl, by simp, hsound, by simp, id⟩
  | cons gamma2 rest ih =>
    intro next st ev hels hsound
    have hg2 := hels gamma2 (List.mem_cons_self _ _)
    have hrest : ∀ c ∈ rest, c.Nodup ∧ c ≠ [] :=
      fun c hc => hels c (List.mem_cons_of_mem _ hc)
    by_cases hq : (intersect1d gamma1 gamma2).length = size - 1
    · obtain ⟨v, j, st', hrun, hval, hsound'⟩ :=
        hstep (sortUnion gamma1 gamma2) st (sortUnion_nodup _ _)
          (sortUnion_ne_nil _ h1ne) hsound
      obtain ⟨next2, st2, ev2, heq, hev, hsound2, hmem, hnd2⟩ :=
        ih (if |v| > T ∧ sortUnion gamma1 gamma2 ∉ next
            then next ++ [sortUnion gamma1 gamma2] else next) st'
          (ev ++ [sortUnion gamma1 gamma2]) hrest hsound'
      have hnext1mem : ∀ U, U ∈ (if |v| > T ∧ sortUnion gamma1 gamma2 ∉ next
            then next ++ [sortUnion gamma1 gamma2] else next) ↔
          U ∈ next ∨ (U = sortUnion gamma1 gamma2 ∧
            |dPure F R (sortUnion gamma1 gamma2).toFinset| > T) := by
        intro U
        by_cases hcond : |v| > T ∧ sortUnion gamma1 gamma2 ∉ next
        · rw [if_pos hcond]
          rw [List.mem_append, List.mem_singleton]
          constructor
          · rintro (h | rfl)
            · exact Or.inl h
            · exact Or.inr ⟨rfl, by rw [← hval]; exact hcond.1⟩
          · rintro (h | ⟨rfl, _⟩)
            · exact Or.inl h
            · exact Or.inr rfl
        · rw [if_neg hcond]
          rw [not_and_or, not_not] at hcond
          constructor
          · exact fun h => Or.inl h
          · rintro (h | ⟨rfl, hbig⟩)
            · exact h
            · rcases hcond with hc | hc
              · rw [← hval] at hbig
                exact absurd hbig hc
              · exact hc
      refine ⟨next2, st2, ev2, ?_, ?_, hsound2, ?_, ?_⟩
      · rw [growInner, if_pos hq, hrun]
        exact heq
      · rw [hev, List.filter_cons, if_pos (by simpa using hq), List.map_cons,
          List.append_assoc]
        rfl
      · intro U
        rw [hmem U, hnext1mem U, List.filter_cons, if_pos (by simpa using hq),
          List.map_cons, List.mem_cons]
        constructor
        · rintro ((h | ⟨rfl, hbig⟩) | ⟨hin, hbig⟩)
          · exact Or.inl h
          · exact Or.inr ⟨Or.inl rfl, hbig⟩
          · exact Or.inr ⟨Or.inr hin, hbig⟩
        · rintro (h | ⟨(rfl | hin), hbig⟩)
          · exact Or.inl (Or.inl h)
          · exact Or.inl (Or.inr ⟨rfl, hbig⟩)
          · exact Or.inr ⟨hin, hbig⟩
      · intro hndnext
        refine hnd2 ?_
        by_cases hcond : |v| > T ∧ sortUnion gamma1 gamma2 ∉ next
        · rw [if_pos hcond, List.nodup_append]
          refine ⟨hndnext, by simp, ?_⟩
          intro a ha ha2
          rw [List.mem_singleton] at ha2
          subst ha2
          exact hcond.2 ha
        · rw [if_neg hcond]
          exact hndnext
    · obtain ⟨next2, st2, ev2, heq, hev, hsound2, hmem, hnd2⟩ :=
        ih next st ev hrest hsound
      refine ⟨next2, st2, ev2, ?_, ?_, hsound2, ?_, hnd2⟩
      · rw [growInner, if_neg hq]
        exact heq
      · rw [hev, List.filter_cons, if_neg (by simpa using hq)]
      · intro U
        rw [hmem U, List.filter_cons, if_neg (by simpa using hq)]

theorem growOuter_spec (F R : Finset ℕ → ℚ)
    (step : List ℕ → DState → Except Unit ((ℚ × Mat) × DState))
    (hstep : ∀ c st, c.Nodup → c ≠ [] → Sound F R st →
      ∃ v j st', step c st = .ok ((v, j), st') ∧ v = dPure F R c.toFinset ∧
        Sound F R st')
    (T : ℚ) (size : ℕ) :
    ∀ gen next st ev, (∀ c ∈ gen, c.Nodup ∧ c ≠ []) → Sound F R st →
    ∃ next2 st2 ev2,
      growOuter step T size gen next st ev = .ok (next2, st2, ev2) ∧
      ev2 = ev ++ qualifyingUnions size gen ∧
      Sound F R st2 ∧
      (∀ U, U ∈ next2 ↔ U ∈ next ∨
        (U ∈ qualifyingUnions size gen ∧ |dPure F R U.toFinset| > T)) ∧
      (next.Nodup → next2.Nodup) := by
  intro gen
  induction gen with
  | nil =>
    intro next st ev _ hsound
    exact ⟨next, st, ev, rfl, by simp [qualifyingUnions], hsound,
      by simp [qualifyingUnions], id⟩
  | cons gamma1 rest ih =>
    intro next st ev hels hsound
    have hg1 := hels gamma1 (List.mem_cons_self _ _)
    have hrest : ∀ c ∈ rest, c.Nodup ∧ c ≠ [] :=
      fun c hc => hels c (List.mem_cons_of_mem _ hc)
    obtain ⟨next1, st1, ev1, heq1, hev1, hsound1, hmem1, hnd1⟩ :=
      growInner_spec F R step hstep T size gamma1 hg1.1 hg1.2 rest next st ev
        hrest hsound
    obtain ⟨next2, st2, ev2, heq2, hev2, hsound2, hmem2, hnd2⟩ :=
      ih next1 st1 ev1 hrest hsound1
    refine ⟨next2, st2, ev2, ?_, ?_, hsound2, ?_, fun h => hnd2 (hnd1 h)⟩
    · rw [growOuter, heq1]
      exact heq2
    · rw [hev2, hev1, qualifyingUnions, List.append_assoc]
    · intro U
      rw [hmem2 U, hmem1 U, qualifyingUnions, List.mem_append]
      constructor
      · rintro ((h | ⟨hin, hbig⟩) | ⟨hin, hbig⟩)
        · exact Or.inl h
        · exact Or.inr ⟨Or.inl hin, hbig⟩
        · exact Or.inr ⟨Or.inr hin, hbig⟩
      · rintro (h | ⟨(hin | hin), hbig⟩)
        · exact Or.inl (Or.inl h)
        · exact Or.inl (Or.inr ⟨hin, hbig⟩)
        · exact Or.inr ⟨hin, hbig⟩

/-- C4: Growth rule of the cluster grower: in the transition from size k to
k+1, the double loop evaluates deltaS exactly on the sorted unions of the
unordered pairs of generation members whose index-set intersection has
exactly k-1 elements (the instrumentation list ev records every evaluated
union in visiting order, so ev equals the list of qualifying unions); an
evaluated union belongs to the size-(k+1) generation exactly when the
magnitude of its marginal contribution exceeds the threshold, the
already-present test making the generation duplicate-free; and the while
loop halts as soon as a generation is empty. -/
theorem claim_C4_growth_rule (fS fInd fMF : List ℕ → ℚ × Mat)
    (F R : Finset ℕ → ℚ) (indep mf : Bool)
    (hflag : ((indep && mf) || (!indep && !mf)) = false)
    (hF : ∀ l, (fS l).1 = F l.toFinset)
    (hR : ∀ l, (if indep then fInd l else fMF l).1 = R l.toFinset)
    (T : ℚ) (size : ℕ) (gen : List (List ℕ))
    (hgen : ∀ c ∈ gen, c.Nodup ∧ c ≠ [])
    (st : DState) (hsound : Sound F R st)
    (next : List (List ℕ)) (st' : DState) (ev : List (List ℕ))
    (hrun : growOuter (solveStep fS fInd fMF indep mf) T size gen [] st [] =
      .ok (next, st', ev)) :
    ev = qualifyingUnions size gen ∧
    next.Nodup ∧
    (∀ U, U ∈ next ↔ U ∈ qualifyingUnions size gen ∧
      |dPure F R U.toFinset| > T) ∧
    (∀ fuel size2 acc st2, growLoop (solveStep fS fInd fMF indep mf) T (fuel + 1)
      size2 [] acc st2 = .ok (acc ++ [[]], st2)) := by
  have hstep : ∀ c st0, c.Nodup → c ≠ [] → Sound F R st0 →
      ∃ v j st1, solveStep fS fInd fMF indep mf c st0 = .ok ((v, j), st1) ∧
        v = dPure F R c.toFinset ∧ Sound F R st1 := by
    intro c st0 hnd hne hs
    obtain ⟨v, j, st1, heval, _, post⟩ :=
      deltaSF_spec fS fInd fMF F R indep mf hflag hF hR (c.length + 1) c st0
        hnd hne (by omega) hs
    exact ⟨v, j, st1, heval, post.val, post.soundOut⟩
  obtain ⟨next2, st2, ev2, heq, hev, _, hmem, hnd⟩ :=
    growOuter_spec F R _ hstep T size gen [] st [] hgen hsound
  rw [heq] at hrun
  have hpair : (next2, st2, ev2) = (next, st', ev) := by injection hrun
  have hn : next2 = next := congrArg Prod.fst hpair
  have he : ev2 = ev := congrArg (fun p => p.2.2) hpair
  refine ⟨?_, ?_, ?_, ?_⟩
  · rw [← he, hev, List.nil_append]
  · rw [← hn]
    exact hnd List.nodup_nil
  · intro U
    rw [← hn, hmem U]
    simp
  · intro fuel size2 acc st2'
    rw [growLoop]
    simp

theorem claim_C4_growth_rule_witness :
    ([[0, 1]] : List (List ℕ)) = qualifyingUnions 1 [[0], [1]] ∧
    ([[0, 1]] : List (List ℕ)).Nodup ∧
    ([0, 1] ∈ ([[0, 1]] : List (List ℕ)) ↔
      [0, 1] ∈ qualifyingUnions 1 [[0], [1]] ∧
        |dPure Fw Rw ([0, 1] : List ℕ).toFinset| > 1) ∧
    growLoop (solveStep fSw fIndw fMFw true false) 1 (0 + 1) 5 [] [] ⟨[], [], 0⟩ =
      .ok ([] ++ [[]], ⟨[], [], 0⟩) :=
  have h := claim_C4_growth_rule fSw fIndw fMFw Fw Rw true false rfl
    (fun _ => rfl) (fun _ => rfl) 1 1 [[0], [1]] (by decide)
    ⟨[], [], 0⟩ (sound_empty Fw Rw) [[0, 1]] memoSt01 [[0, 1]]
    (by
      norm_num [growOuter, growInner, intersect1d, sortUnion, solveStep, deltaSF,
        strictSubsList, goSizes, subsets, goSubs, lookupD, clusterID,
        List.insertionSort, List.orderedInsert, matSub, memoSt01, fSw, fIndw, fMFw,
        Fw, Rw]
      rw [if_neg (show ¬ ([0, 1] : List ℕ) = [] by simp)]
      norm_num)
  ⟨h.1, h.2.1, h.2.2.1 [0, 1], h.2.2.2 0 5 [] ⟨[], [], 0⟩⟩

/-! ### Threshold monotonicity of the growth loop -/

theorem solveStep_spec (fS fInd fMF : List ℕ → ℚ × Mat) (F R : Finset ℕ → ℚ)
    (indep mf : Bool) (hflag : ((indep && mf) || (!indep && !mf)) = false)
    (hF : ∀ l, (fS l).1 = F l.toFinset)
    (hR : ∀ l, (if indep then fInd l else fMF l).1 = R l.toFinset) :
    ∀ c st0, c.Nodup → c ≠ [] → Sound F R st0 →
      ∃ v j st1, solveStep fS fInd fMF indep mf c st0 = .ok ((v, j), st1) ∧
        v = dPure F R c.toFinset ∧ Sound F R st1 := by
  intro c st0 hnd hne hs
  obtain ⟨v, j, st1, heval, _, post⟩ :=
    deltaSF_spec fS fInd fMF F R indep mf hflag hF hR (c.length + 1) c st0
      hnd hne (by omega) hs
  exact ⟨v, j, st1, heval, post.val, post.soundOut⟩

theorem qualifying_els {size : ℕ} {gen : List (List ℕ)} {U : List ℕ}
    (hgen : ∀ c ∈ gen, c.Nodup ∧ c ≠ [])
    (h : U ∈ qualifyingUnions size gen) : U.Nodup ∧ U ≠ [] := by
  obtain ⟨a, b, ha, _, _, rfl⟩ := mem_qualifyingUnions_exists h
  exact ⟨sortUnion_nodup a b, sortUnion_ne_nil b (hgen a ha).2⟩

theorem qualifyingUnions_mono {size : ℕ} {gen1 gen2 : List (List ℕ)}
    (h1 : gen1.Nodup) (h2 : gen2.Nodup) (hsub : ∀ U ∈ gen2, U ∈ gen1) :
    ∀ U ∈ qualifyingUnions size gen2, U ∈ qualifyingUnions size gen1 := by
  intro U hU
  rw [mem_qualifyingUnions_iff h2] at hU
  obtain ⟨a, b, ha, hb, hne, hl, rfl⟩ := hU
  rw [mem_qualifyingUnions_iff h1]
  exact ⟨a, b, hsub a ha, hsub b hb, hne, hl, rfl⟩

theorem growLoop_extends
    (step : List ℕ → DState → Except Unit ((ℚ × Mat) × DState)) (T : ℚ) :
    ∀ fuel size cur acc st g stg,
      growLoop step T fuel size cur acc st = .ok (g, stg) →
      ∃ tail, g = acc ++ cur :: tail := by
  intro fuel
  induction fuel with
  | zero =>
    intro size cur acc st g stg h
    rw [growLoop] at h
    exact absurd h (by simp)
  | succ fuel ih =>
    intro size cur acc st g stg h
    rw [growLoop] at h
    by_cases hc : cur.isEmpty
    · rw [if_pos hc] at h
      have hpair : ((acc ++ [cur], st) : List (List (List ℕ)) × DState) = (g, stg) := by
        injection h
      refine ⟨[], ?_⟩
      have hg : acc ++ [cur] = g := congrArg Prod.fst hpair
      rw [← hg]
    · rw [if_neg hc] at h
      cases hgo : growOuter step T size cur [] st [] with
      | error e =>
        rw [hgo] at h
        exact absurd h (by simp)
      | ok r =>
        rw [hgo] at h
        obtain ⟨next, st1, ev⟩ := r
        obtain ⟨tail, htail⟩ := ih (size + 1) next (acc ++ [cur]) st1 g stg h
        refine ⟨next :: tail, ?_⟩
        rw [htail, List.append_assoc, List.singleton_append]

theorem growLoop_mono (fS fInd fMF : List ℕ → ℚ × Mat) (F R : Finset ℕ → ℚ)
    (indep mf : Bool) (hflag : ((indep && mf) || (!indep && !mf)) = false)
    (hF : ∀ l, (fS l).1 = F l.toFinset)
    (hR : ∀ l, (if indep then fInd l else fMF l).1 = R l.toFinset)
    (T1 T2 : ℚ) (hT : T1 ≤ T2) :
    ∀ fuel size cur1 cur2 acc1 acc2 st1 st2 g1 g2 stg1 stg2,
      (∀ c ∈ cur1, c.Nodup ∧ c ≠ []) → (∀ c ∈ cur2, c.Nodup ∧ c ≠ []) →
      cur1.Nodup → cur2.Nodup →
      (∀ U ∈ cur2, U ∈ cur1) →
      Sound F R st1 → Sound F R st2 →
      acc1.length = acc2.length →
      (∀ k U, U ∈ acc2.getD k [] → U ∈ acc1.getD k []) →
      growLoop (solveStep fS fInd fMF indep mf) T1 fuel size cur1 acc1 st1 =
        .ok (g1, stg1) →
      growLoop (solveStep fS fInd fMF indep mf) T2 fuel size cur2 acc2 st2 =
        .ok (g2, stg2) →
      ∀ k U, U ∈ g2.getD k [] → U ∈ g1.getD k [] := by
  have hstep := solveStep_spec fS fInd fMF F R indep mf hflag hF hR
  intro fuel
  induction fuel with
  | zero =>
    intro size cur1 cur2 acc1 acc2 st1 st2 g1 g2 stg1 stg2 _ _ _ _ _ _ _ _ _ h1 _
    rw [growLoop] at h1
    exact absurd h1 (by simp)
  | succ fuel ih =>
    intro size cur1 cur2 acc1 acc2 st1 st2 g1 g2 stg1 stg2 he1 he2 hn1 hn2 hsub
      hs1 hs2 hlen hacc h1 h2
    by_cases h2e : cur2.isEmpty
    · -- the stricter run stops here; its generations are all accounted for
      have hc2 : cur2 = [] := List.isEmpty_iff.mp h2e
      rw [growLoop, if_pos h2e] at h2
      have hpair : ((acc2 ++ [cur2], st2) : List (List (List ℕ)) × DState)
          = (g2, stg2) := by injection h2
      have hg2 : acc2 ++ [cur2] = g2 := congrArg Prod.fst hpair
      obtain ⟨tail1, htail1⟩ := growLoop_extends _ T1 _ _ _ _ _ _ _ h1
      intro k U hU
      rw [← hg2, hc2] at hU
      rcases Nat.lt_or_ge k acc2.length with hk | hk
      · rw [List.getD_append _ _ _ _ hk] at hU
        have hU1 := hacc k U hU
        rw [htail1, List.getD_append _ _ _ _ (by omega)]
        exact hU1
      · exfalso
        rw [List.getD_append_right _ _ _ _ hk] at hU
        rcases Nat.eq_or_lt_of_le hk with hk2 | hk2
        · rw [← hk2, Nat.sub_self] at hU
          simp at hU
        · have : ([([] : List (List ℕ))]).getD (k - acc2.length) [] = [] := by
            have hge : 1 ≤ k - acc2.length := by omega
            cases hkk : k - acc2.length with
            | zero => omega
            | succ m => simp
          rw [this] at hU
          simp at hU
    · -- both runs advance one generation
      have h1e : ¬ cur1.isEmpty := by
        intro hc
        have hc1 : cur1 = [] := List.isEmpty_iff.mp hc
        have h2ne : cur2 ≠ [] := fun hcc => h2e (by rw [hcc]; rfl)
        obtain ⟨U0, hU0⟩ := List.exists_mem_of_ne_nil cur2 h2ne
        have := hsub U0 hU0
        rw [hc1] at this
        simp at this
      rw [growLoop, if_neg h1e] at h1
      rw [growLoop, if_neg h2e] at h2
      obtain ⟨n1, s1, e1, heq1, _, hsound1, hmem1, hnodup1⟩ :=
        growOuter_spec F R _ hstep T1 size cur1 [] st1 [] he1 hs1
      obtain ⟨n2, s2, e2, heq2, _, hsound2, hmem2, hnodup2⟩ :=
        growOuter_spec F R _ hstep T2 size cur2 [] st2 [] he2 hs2
      rw [heq1] at h1
      rw [heq2] at h2
      have hq1 : ∀ U ∈ n1, U ∈ qualifyingUnions size cur1 ∧
          |dPure F R U.toFinset| > T1 := by
        intro U hU
        have := (hmem1 U).mp hU
        simpa using this
      have hq2 : ∀ U ∈ n2, U ∈ qualifyingUnions size cur2 ∧
          |dPure F R U.toFinset| > T2 := by
        intro U hU
        have := (hmem2 U).mp hU
        simpa using this
      refine ih (size + 1) n1 n2 (acc1 ++ [cur1]) (acc2 ++ [cur2]) s1 s2 g1 g2
        stg1 stg2 ?_ ?_ (hnodup1 List.nodup_nil) (hnodup2 List.nodup_nil) ?_
        hsound1 hsound2 (by simp [hlen]) ?_ h1 h2
      · intro c hc
        exact qualifying_els he1 (hq1 c hc).1
      · intro c hc
        exact qualifying_els he2 (hq2 c hc).1
      · intro U hU
        obtain ⟨hqual, hbig⟩ := hq2 U hU
        refine (hmem1 U).mpr (Or.inr ⟨?_, ?_⟩)
        · exact qualifyingUnions_mono hn1 hn2 hsub U hqual
        · exact lt_of_le_of_lt hT hbig
      · intro k U hU
        rcases Nat.lt_or_ge k acc2.length with hk | hk
        · rw [List.getD_append _ _ _ _ hk] at hU
          rw [List.getD_append _ _ _ _ (by omega)]
          exact hacc k U hU
        · rcases Nat.eq_or_lt_of_le hk with hk2 | hk2
          · rw [List.getD_append_right _ _ _ _ hk, ← hk2, Nat.sub_self] at hU
            rw [List.getD_append_right _ _ _ _ (by omega), hlen, ← hk2,
              Nat.sub_self]
            simp only [List.getD_cons_zero] at hU ⊢
            exact hsub U hU
          · exfalso
            rw [List.getD_append_right _ _ _ _ hk] at hU
            have hge : 1 ≤ k - acc2.length := by omega
            cases hkk : k - acc2.length with
            | zero => omega
            | succ m =>
              rw [hkk] at hU
              simp at hU

theorem solveACE_gens (O : Oracle) (X : List (List ℚ)) (T priorLmbda : ℚ)
    (ns : Option ℚ) (mf indep : Bool) (st0 : DState) (fuel : ℕ)
    (r : ℚ × List ℚ × List (List (List ℕ)) × DState)
    (hb : (indep && mf) = false)
    (hrun : solveACE O X T priorLmbda ns mf indep st0 fuel = .ok r) :
    growLoop (solveStep (SforDeltaS O (solveCooc X) priorLmbda ns)
        (fun c => Sindependent O c (solveCooc X))
        (fun c => O.smeanfield c (solveCooc X) priorLmbda ns) indep mf)
      T fuel 1
      ((List.range (solveCooc X).length).map (fun i => ([i] : List ℕ)))
      [] st0 = .ok (r.2.2.1, r.2.2.2) := by
  rw [solveACE, hb] at hrun
  simp only [Bool.false_eq_true, if_false] at hrun
  cases hg : growLoop (solveStep (SforDeltaS O (solveCooc X) priorLmbda ns)
      (fun c => Sindependent O c (solveCooc X))
      (fun c => O.smeanfield c (solveCooc X) priorLmbda ns) indep mf)
      T fuel 1
      ((List.range (solveCooc X).length).map (fun i => ([i] : List ℕ)))
      [] st0 with
  | error e =>
    rw [hg] at hrun
    exact absurd hrun (by simp)
  | ok p =>
    obtain ⟨gens, stg⟩ := p
    rw [hg] at hrun
    simp only [] at hrun
    set entJ0 : ℚ × Mat :=
      if indep then Sindependent O (List.range (solveCooc X).length) (solveCooc X)
      else if mf then O.smeanfield (List.range (solveCooc X).length) (solveCooc X)
        priorLmbda ns
      else (0, zerosMat (solveCooc X).length (solveCooc X).length) with hentJ0
    cases ha : assemble stg gens entJ0.1 entJ0.2 with
    | error e =>
      rw [ha] at hrun
      exact absurd hrun (by simp)
    | ok q =>
      rw [ha] at hrun
      simp only [] at hrun
      have hpair : ((q.1, solveConvert q.2, gens, stg) :
          ℚ × List ℚ × List (List (List ℕ)) × DState) = r := by
        injection hrun
      subst hpair
      rfl

/-- C7: threshold monotonicity of growth.  With exactly one reference mode
active and the analytic and reference entropies functions of the index set,
two successful runs of solve on the same data from fresh memo dictionaries
with thresholds T1 < T2 return generation lists such that every cluster
surviving at any size in the stricter (T2) run also survives at that size in
the looser (T1) run. -/
theorem claim_C7_threshold_monotonicity (O : Oracle) (X : List (List ℚ))
    (priorLmbda : ℚ) (ns : Option ℚ) (meanFieldRef independentRef : Bool)
    (F R : Finset ℕ → ℚ)
    (hflag : ((independentRef && meanFieldRef) ||
      (!independentRef && !meanFieldRef)) = false)
    (hF : ∀ l, (SforDeltaS O (solveCooc X) priorLmbda ns l).1 = F l.toFinset)
    (hR : ∀ l, (if independentRef then Sindependent O l (solveCooc X)
        else O.smeanfield l (solveCooc X) priorLmbda ns).1 = R l.toFinset)
    (T1 T2 : ℚ) (hT : T1 < T2) (fuel : ℕ)
    (r1 r2 : ℚ × List ℚ × List (List (List ℕ)) × DState)
    (hrun1 : solveACE O X T1 priorLmbda ns meanFieldRef independentRef
      ⟨[], [], 0⟩ fuel = .ok r1)
    (hrun2 : solveACE O X T2 priorLmbda ns meanFieldRef independentRef
      ⟨[], [], 0⟩ fuel = .ok r2) :
    ∀ k U, U ∈ r2.2.2.1.getD k [] → U ∈ r1.2.2.1.getD k [] := by
  have hb : (independentRef && meanFieldRef) = false := by
    revert hflag
    cases independentRef <;> cases meanFieldRef <;> simp
  have hg1 := solveACE_gens O X T1 priorLmbda ns meanFieldRef independentRef
    ⟨[], [], 0⟩ fuel r1 hb hrun1
  have hg2 := solveACE_gens O X T2 priorLmbda ns meanFieldRef independentRef
    ⟨[], [], 0⟩ fuel r2 hb hrun2
  have hels : ∀ c ∈ (List.range (solveCooc X).length).map
      (fun i => ([i] : List ℕ)), c.Nodup ∧ c ≠ [] := by
    intro c hc
    simp only [List.mem_map] at hc
    obtain ⟨i, _, rfl⟩ := hc
    exact ⟨by simp, by simp⟩
  have hnd : ((List.range (solveCooc X).length).map
      (fun i => ([i] : List ℕ))).Nodup := by
    refine List.Nodup.map ?_ (List.nodup_range _)
    intro a b h
    simpa using h
  exact growLoop_mono (SforDeltaS O (solveCooc X) priorLmbda ns)
    (fun c => Sindependent O c (solveCooc X))
    (fun c => O.smeanfield c (solveCooc X) priorLmbda ns)
    F R independentRef meanFieldRef hflag hF hR T1 T2 (le_of_lt hT)
    fuel 1 _ _ [] [] _ _ _ _ _ _ hels hels hnd hnd (fun U hU => hU)
    (sound_empty F R) (sound_empty F R) rfl
    (fun k U hU => by rw [List.getD_nil] at hU; exact absurd hU (by simp))
    hg1 hg2

/-- The entropy value SforDeltaS yields under the oracle O0: the numerical
solver path is taken for every non-empty cluster and returns the [[7]]
interaction matrix, whose entropy under O0 is 7; the empty cluster is the
totalized error case. -/
theorem SforDeltaS_O0_fst (M : Mat) (p : ℚ) (ns : Option ℚ) (l : List ℕ) :
    (SforDeltaS O0 M p ns l).1 = if l.toFinset = ∅ then 0 else 7 := by
  cases l with
  | nil => rfl
  | cons a t =>
    rw [if_neg (by simp)]
    rw [SforDeltaS, Sfun, if_neg (by simp), if_neg (by simp), if_neg (by simp)]
    rfl

/-- The independent reference entropy under O0 is identically 0 (its log is
identically 0). -/
theorem Sindependent_O0_fst (l : List ℕ) (M : Mat) :
    (Sindependent O0 l M).1 = 0 := by
  simp [Sindependent, O0]

/-- C7 witness: the plus-minus-one data set [[1, -1]] on two variables under
the oracle O0 in independent mode, thresholds 5 < 8: the T2 = 8 run retains
only the singleton generation while the T1 = 5 run also retains [0, 1], and
every survivor of the stricter run survives the looser one. -/
theorem claim_C7_threshold_monotonicity_witness :
    (5 : ℚ) < 8 ∧
    [0] ∈ (([[[0], [1]], [[0, 1]], []] : List (List (List ℕ))).getD 0 []) := by
  have hrun1 : solveACE O0 [[1, -1]] 5 0 none false true ⟨[], [], 0⟩ 5 =
      .ok (7, [-7, 0, 0], [[[0], [1]], [[0, 1]], []],
        ⟨[([0], 7), ([1], 7), ([0, 1], -7)],
         [([0], [[7, 0], [0, 0]]), ([1], [[0, 0], [0, 7]]),
          ([0, 1], [[0, 0], [0, -7]])], 3⟩) := by
    norm_num [solveACE, solveCooc, coocurrence_matrix, List.range_succ,
      growLoop, growOuter, growInner, solveStep, deltaSF, strictSubsList,
      goSizes, subsets, goSubs, lookupD, clusterID, List.insertionSort,
      List.orderedInsert, matSub, matAdd, matNeg, intersect1d, sortUnion,
      SforDeltaS, Sfun, Sindependent, coocCluster, symmetrizeUsingUpper,
      diagOf, diagMat, JfullFromCluster, entry, zerosMat, assemble,
      assembleGen, solveConvert, convert_params, squareformUpper, zeroDiag,
      List.replicate, O0]
    rw [if_neg (show ¬ ([0, 1] : List ℕ) = [] by simp)]
    norm_num [growLoop, growOuter, growInner, solveStep, deltaSF, strictSubsList,
      goSizes, subsets, goSubs, lookupD, clusterID, List.insertionSort,
      List.orderedInsert, matSub, matAdd, matNeg, intersect1d, sortUnion,
      SforDeltaS, Sfun, Sindependent, coocCluster, symmetrizeUsingUpper,
      diagOf, diagMat, JfullFromCluster, entry, zerosMat, assemble,
      assembleGen, solveConvert, convert_params, squareformUpper, zeroDiag,
      List.range_succ, List.replicate, O0]
  have hrun2 : solveACE O0 [[1, -1]] 8 0 none false true ⟨[], [], 0⟩ 5 =
      .ok (14, [-7, -7, 0], [[[0], [1]], []],
        ⟨[([0], 7), ([1], 7), ([0, 1], -7)],
         [([0], [[7, 0], [0, 0]]), ([1], [[0, 0], [0, 7]]),
          ([0, 1], [[0, 0], [0, -7]])], 3⟩) := by
    norm_num [solveACE, solveCooc, coocurrence_matrix, List.range_succ,
      growLoop, growOuter, growInner, solveStep, deltaSF, strictSubsList,
      goSizes, subsets, goSubs, lookupD, clusterID, List.insertionSort,
      List.orderedInsert, matSub, matAdd, matNeg, intersect1d, sortUnion,
      SforDeltaS, Sfun, Sindependent, coocCluster, symmetrizeUsingUpper,
      diagOf, diagMat, JfullFromCluster, entry, zerosMat, assemble,
      assembleGen, solveConvert, convert_params, squareformUpper, zeroDiag,
      List.replicate, O0]
    rw [if_neg (show ¬ ([0, 1] : List ℕ) = [] by simp)]
    norm_num [growLoop, growOuter, growInner, solveStep, deltaSF, strictSubsList,
      goSizes, subsets, goSubs, lookupD, clusterID, List.insertionSort,
      List.orderedInsert, matSub, matAdd, matNeg, intersect1d, sortUnion,
      SforDeltaS, Sfun, Sindependent, coocCluster, symmetrizeUsingUpper,
      diagOf, diagMat, JfullFromCluster, entry, zerosMat, assemble,
      assembleGen, solveConvert, convert_params, squareformUpper, zeroDiag,
      List.range_succ, List.replicate, O0]
  refine ⟨by norm_num, ?_⟩
  exact claim_C7_threshold_monotonicity O0 [[1, -1]] 0 none false true
    (fun s => if s = ∅ then (0 : ℚ) else 7) (fun _ => (0 : ℚ)) (by decide)
    (fun l => SforDeltaS_O0_fst (solveCooc [[1, -1]]) 0 none l)
    (fun l => Sindependent_O0_fst l (solveCooc [[1, -1]]))
    5 8 (by norm_num) 5 _ _ hrun1 hrun2 0 [0] (by decide)

end ConiiiACE
